import Mathlib

/-!
# Verification of the Strate middleware pipeline

A shallow embedding of the Strate middleware orchestration layer
(middleware identity resolution, dependency-graph construction and
topological ordering, the guarded context object, configuration merging
and the onion execution engine), together with theorems settling the
specification claims.

All definitions are translated from the TypeScript source.  JavaScript
semantics that matter for the claims are modelled explicitly:
truthiness of strings (the empty string is falsy), the coercion of an
unassigned `let namespace: string` variable to the string "undefined"
under string concatenation, object-rest destructuring producing a fresh
object, and `Object.assign` presence semantics on optional fields.
-/

namespace Strate

/-! ## Middleware identity resolution (`getMiddlewareName`, src part_000 lines 53-78)

A middleware reference is a string, a class (function) reference, or a
class instance.  Instances are represented by the data the resolver
inspects: the constructor's `namespace` static, the constructor name and
the (synchronous) result of the optional `id()` method.  `Option.none`
models an absent property; `some ""` models a present-but-falsy string,
which JavaScript truthiness treats like an absent one, except that in
the instance branch the local variable `namespace` is then left
unassigned and string concatenation coerces it to `"undefined"`. -/

inductive MWRef where
  | str (s : String)
  | cls (nspace : Option String) (nm : String)
  | inst (nspace : Option String) (className : String) (idStr : Option String)
  deriving DecidableEq

/-- Translation of `getMiddlewareName`.  The string branch returns the
string; the class branch returns `namespace.name` when the `namespace`
static is truthy, else the bare class name; the instance branch
concatenates the local `namespace` variable — assigned only when the
static is truthy, hence coerced to `"undefined"` otherwise — with the
`id()` result when truthy, else the constructor name. -/

def getMiddlewareName : MWRef → String
  | .str s => s
  | .cls ns nm =>
    match ns with
    | some s => if s ≠ "" then s ++ "." ++ nm else nm
    | none => nm
  | .inst ns cls idStr =>
    (match ns with
     | some s => if s ≠ "" then s ++ "." else "undefined"
     | none => "undefined") ++
    (match idStr with
     | some i => if i ≠ "" then i else cls
     | none => cls)

/-! ## The guarded context object (`createContext`, src part_000 lines 83-106)

The context is a plain object wrapped in a `Proxy`.  The `set` trap
warns (through `strate.warn`) when the assigned key is already an own
property of the target and then performs the write anyway; the `get`
trap warns when the key is not an own property and yields the property
value (`undefined` for an absent key).  Only top-level property access
goes through the proxy: `ctx.a.b` performs a proxied read of `a`
followed by a plain access on the stored object, so nested keys are
never intercepted.  Values are modelled by `JSVal`; the `Bool`
component of each operation records whether the warning logger was
invoked. -/

inductive JSVal where
  | undef
  | prim (s : String)
  | obj (fields : List (String × String))
  deriving DecidableEq

structure Ctx where
  entries : List (String × JSVal)
  deriving DecidableEq

/-- The object created by `createContext` before proxying: a record
holding only the reserved `strate` key (configuration and loggers). -/

def createContext : Ctx :=
  { entries := [("strate", JSVal.obj [])] }

def hasOwn (c : Ctx) (k : String) : Bool :=
  c.entries.any (fun p => p.1 == k)

def lookupEntry (c : Ctx) (k : String) : Option JSVal :=
  c.entries.lookup k

def setEntry : List (String × JSVal) → String → JSVal → List (String × JSVal)
  | [], k, v => [(k, v)]
  | p :: rest, k, v => if p.1 = k then (k, v) :: rest else p :: setEntry rest k v

/-- The proxy `set` trap: warn iff the key is already present, then
perform the write.  Returns the updated context and whether `warn` was
invoked. -/

def ctxSet (c : Ctx) (k : String) (v : JSVal) : Ctx × Bool :=
  (⟨setEntry c.entries k v⟩, hasOwn c k)

/-- The proxy `get` trap: warn iff the key is absent; an absent key
reads as `undefined` and never throws. -/

def ctxGet (c : Ctx) (k : String) : JSVal × Bool :=
  ((lookupEntry c k).getD .undef, !hasOwn c k)

/-- Model of `ctx.k1.k2 = v`: a proxied read of `k1` followed by a plain write on
the stored object; the only possible warning comes from the outer read. -/

def ctxSetNested (c : Ctx) (k1 k2 : String) (v : String) : Ctx × Bool :=
  let warned := !hasOwn c k1
  match lookupEntry c k1 with
  | some (JSVal.obj fields) =>
    (⟨setEntry c.entries k1 (JSVal.obj ((k2, v) :: fields.filter (fun p => p.1 ≠ k2)))⟩, warned)
  | _ => (c, warned)

/-- Model of `ctx.k1.k2`: a proxied read of `k1` followed by a plain read on the
stored object. -/

def ctxGetNested (c : Ctx) (k1 k2 : String) : Option String × Bool :=
  let warned := !hasOwn c k1
  match lookupEntry c k1 with
  | some (JSVal.obj fields) => (fields.lookup k2, warned)
  | _ => (none, warned)

/-! ## Configuration merging (`loadConfiguration`, src part_000 lines 111-127)

`loadConfiguration` destructures both parameters with object-rest
patterns (`{ middleware: baseMiddleware = [], ...baseConfiguration }`),
so `baseConfiguration` and `routeConfiguration` are *fresh* objects
holding the remaining own fields; `Object.assign` then targets the
fresh base-rest object.  To make object identity observable, reference
fields of the configuration record are `Option`s (`none` = field not
present on the object) and objects live on an explicit heap of
`CfgObj`s addressed by `Nat` references; a call allocates its result at
the end of the heap. -/

structure CfgObj where
  debug : Option Bool
  middleware : Option (List MWRef)
  skip : Option (List MWRef)
  deriving DecidableEq

/-- Model of `Object.assign(t, s)` on the three known fields: a field of `s`
that is present overwrites the field of `t`. -/

def objAssign (t s : CfgObj) : CfgObj :=
  { debug := match s.debug with | some d => some d | none => t.debug
    middleware := match s.middleware with | some m => some m | none => t.middleware
    skip := match s.skip with | some k => some k | none => t.skip }

/-- Translation of `loadConfiguration` over an explicit heap.  The base
configuration is passed by reference (first argument); the route
configuration object is a per-call literal and is passed by value.  The
returned reference addresses the object produced by the base parameter's
rest pattern, which `Object.assign` mutated — a fresh allocation, not
the base. -/

def loadConfiguration (h : List CfgObj) (baseRef : Nat) (route : CfgObj) :
    List CfgObj × Nat :=
  let base := h.getD baseRef ⟨none, none, none⟩
  let baseRest : CfgObj := { debug := base.debug, middleware := none, skip := base.skip }
  let skip := route.skip.getD []
  let routeRest : CfgObj := { debug := route.debug, middleware := none, skip := none }
  let resolvedSkip := skip.map getMiddlewareName
  let merged := ((base.middleware.getD []) ++ (route.middleware.getD [])).filter
    (fun m => !resolvedSkip.contains (getMiddlewareName m))
  let result := { objAssign baseRest routeRest with
                  middleware := some merged
                  skip := some (resolvedSkip.map MWRef.str) }
  (h ++ [result], h.length)

/-! ## Middleware instances and their observable behavior

The execution engine runs each middleware's `handle` method.  User
middleware are modelled by a small action language rich enough to
express the behaviors the claims quantify over: emitting an observable
marker (any user-visible side effect), invoking and awaiting the
continuation `next`, invoking the installed error-responder capability
`context.error`, and throwing an ordinary error.  Strate's own
`ErrorHandler.handle` (src ErrorHandler.ts lines 29-59) has semantics a
straight-line action list cannot express (try/catch), so it is a
distinguished behavior translated directly from its source. -/

inductive Action where
  | emit (tag : String)
  | callNext
  | callError
  | throwErr (tag : String)
  deriving DecidableEq

/-- Handler actions: the route handler receives `(request, response,
context)` but no continuation, so it cannot call `next`. -/

inductive HAction where
  | emit (tag : String)
  | callError
  | throwErr (tag : String)
  deriving DecidableEq

inductive MWBehavior where
  | prog (acts : List Action)
  | errorHandler
  deriving DecidableEq

/-- A middleware instance: the data `getMiddlewareName` inspects, the
`dependencies` static, and the observable behavior of `handle`. -/

structure MiddlewareInstance where
  nspace : Option String
  className : String
  idStr : Option String
  dependencies : List MWRef
  behavior : MWBehavior
  deriving DecidableEq

def MiddlewareInstance.toRef (m : MiddlewareInstance) : MWRef :=
  .inst m.nspace m.className m.idStr

/-- Model of `getMiddlewareName` applied to an instance. -/

def instanceName (m : MiddlewareInstance) : String :=
  getMiddlewareName m.toRef

/-! ## The dependency graph (the `dependency-graph` npm package)

`resolveMiddleware` delegates to the external `dependency-graph`
package (`DepGraph`).  Its operations are modelled here after that
package's implementation: `addNode` is a no-op on an existing node,
`addDependency` throws when either endpoint is missing and deduplicates
edges, and `overallOrder` first runs a cycle-detecting DFS from every
node and then collects a DFS postorder from the roots (nodes with no
incoming edges).  The DFS is written with explicit fuel
(`nodes.length + 1` always suffices, proved below); edge maps are
functions with `[]` default, exactly like the package's
`outgoingEdges` / `incomingEdges` records. -/

inductive GraphError where
  | nodeMissing (nm : String)
  | dependsOnSkipped (dependent dependency : String)
  | missingDependency (dependent dependency : String)
  | cycle (path : List String)
  | fuelExhausted
  | corruptGraph
  deriving DecidableEq

structure DepGraph where
  nodes : List String
  dat : String → Option MiddlewareInstance
  outgoing : String → List String
  incoming : String → List String

def DepGraph.empty : DepGraph :=
  ⟨[], fun _ => none, fun _ => [], fun _ => []⟩

def DepGraph.hasNode (g : DepGraph) (n : String) : Bool :=
  g.nodes.contains n

def DepGraph.addNode (g : DepGraph) (n : String) (d : MiddlewareInstance) : DepGraph :=
  if g.hasNode n then g
  else
    { nodes := g.nodes ++ [n]
      dat := fun m => if m = n then some d else g.dat m
      outgoing := fun m => if m = n then [] else g.outgoing m
      incoming := fun m => if m = n then [] else g.incoming m }

/-- Model of `setNodeData` (always called under a `hasNode` guard in Strate). -/

def DepGraph.setNodeData (g : DepGraph) (n : String) (d : MiddlewareInstance) : DepGraph :=
  { g with dat := fun m => if m = n then some d else g.dat m }

def DepGraph.getNodeData (g : DepGraph) (n : String) : Option MiddlewareInstance :=
  g.dat n

/-- Model of `addDependency(from, to)`: fails when either node is missing,
otherwise records the edge in both edge maps, deduplicating. -/

def DepGraph.addDependency (g : DepGraph) (a b : String) : Except GraphError DepGraph :=
  if ¬ g.hasNode a then .error (.nodeMissing a)
  else if ¬ g.hasNode b then .error (.nodeMissing b)
  else .ok
    { g with
      outgoing := fun m =>
        if m = a then (if b ∈ g.outgoing a then g.outgoing a else g.outgoing a ++ [b])
        else g.outgoing m
      incoming := fun m =>
        if m = b then (if a ∈ g.incoming b then g.incoming b else g.incoming b ++ [a])
        else g.incoming m }

/-- Sequentially runs a step over a list of nodes, threading the visited
accumulator; the shape of both the package's cycle-check loop over all
keys and its root loop, and of the DFS descent into a node's edges. -/

def runList (step : String → List String → Except GraphError (List String)) :
    List String → List String → Except GraphError (List String)
  | [], res => .ok res
  | c :: rest, res =>
    match step c res with
    | .error e => .error e
    | .ok r => runList step rest r

/-- The package's `createDFS` (leavesOnly = false), in recursive form:
skip a visited node; throw `DepGraphCycleError` on a node already in
the current path; otherwise descend into its outgoing edges and append
the node to the result afterwards (postorder). -/

def dfs (g : DepGraph) : Nat → String → List String → List String →
    Except GraphError (List String)
  | 0, _, _, _ => .error .fuelExhausted
  | fuel + 1, start, path, res =>
    if start ∈ res then .ok res
    else if start ∈ path then .error (.cycle (path ++ [start]))
    else if start ∈ g.nodes then
      match runList (fun c r => dfs g fuel c (path ++ [start]) r) (g.outgoing start) res with
      | .error e => .error e
      | .ok r => .ok (r ++ [start])
    else .error .corruptGraph

/-- Model of `overallOrder()`: empty graph yields `[]`; otherwise a
cycle-detecting DFS from every node, then a postorder DFS from the
roots (nodes with no incoming edges). -/

def overallOrder (g : DepGraph) : Except GraphError (List String) :=
  if g.nodes.isEmpty then .ok []
  else
    match runList (fun n r => dfs g (g.nodes.length + 1) n [] r) g.nodes [] with
    | .error e => .error e
    | .ok _ =>
      runList (fun n r => dfs g (g.nodes.length + 1) n [] r)
        (g.nodes.filter (fun n => (g.incoming n).isEmpty)) []

/-! ## Graph construction (`resolveMiddleware`, src part_000 lines 150-217) -/

/-- Model of `addMiddlewareToGraph`: resolve each instance's identity; replace
the node data on a duplicate identity (after a console warning, not
tracked here), insert a fresh node otherwise. -/

def addMiddlewareToGraph (g : DepGraph) (mws : List MiddlewareInstance) : DepGraph :=
  mws.foldl
    (fun g inst =>
      let nm := instanceName inst
      if g.hasNode nm then g.setNodeData nm inst else g.addNode nm inst)
    g

/-- The error `resolveMiddleware` raises when `addDependency` throws:
a "depends on a skipped middleware" error when the dependency identity
is in the configuration's skip list, a "missing middleware dependency"
error otherwise. -/

def mkDepError (skip : Option (List String)) (i dn : String) : GraphError :=
  if (skip.getD []).contains dn then .dependsOnSkipped i dn
  else .missingDependency i dn

/-- The inner dependency loop for one instance. -/

def addInstDeps (skip : Option (List String)) (instNm : String) :
    DepGraph → List MWRef → Except GraphError DepGraph
  | g, [] => .ok g
  | g, d :: ds =>
    let dn := getMiddlewareName d
    match g.addDependency instNm dn with
    | .ok g2 => addInstDeps skip instNm g2 ds
    | .error _ => .error (mkDepError skip instNm dn)

/-- The outer dependency loop over every configured instance. -/

def addAllDependencies (skip : Option (List String)) :
    DepGraph → List MiddlewareInstance → Except GraphError DepGraph
  | g, [] => .ok g
  | g, inst :: rest =>
    match addInstDeps skip (instanceName inst) g inst.dependencies with
    | .error e => .error e
    | .ok g2 => addAllDependencies skip g2 rest

/-- Translation of `resolveMiddleware`: build the graph from the
configured middleware, add every declared dependency edge (failing
fatally on a missing or skipped target), and return the graph together
with its overall topological order. -/

def resolveMiddleware (mws : List MiddlewareInstance) (skip : Option (List String)) :
    Except GraphError (DepGraph × List String) :=
  let g := addMiddlewareToGraph DepGraph.empty mws
  match addAllDependencies skip g mws with
  | .error e => .error e
  | .ok g2 =>
    match overallOrder g2 with
    | .error e => .error e
    | .ok order => .ok (g2, order)

/-! ## Graph predicates

`DeclEdge mws a b` holds when some configured instance with identity
`a` declares a dependency whose identity resolves to `b`; `GraphEdge`
is the corresponding edge of a built graph; `IsCycle R l` says the
non-empty list `l` is chained by `R` and wraps around; `GraphWF` is
the structural invariant every graph reachable through the
`dependency-graph` API satisfies. -/

def DeclEdge (mws : List MiddlewareInstance) (a b : String) : Prop :=
  ∃ inst ∈ mws, instanceName inst = a ∧
    ∃ d ∈ inst.dependencies, getMiddlewareName d = b

def GraphEdge (g : DepGraph) (a b : String) : Prop :=
  b ∈ g.outgoing a

def IsCycle (R : String → String → Prop) (l : List String) : Prop :=
  l ≠ [] ∧ List.Chain' R l ∧
    ∃ a b, l.head? = some a ∧ l.getLast? = some b ∧ R b a

def GraphWF (g : DepGraph) : Prop :=
  g.nodes.Nodup ∧
  (∀ n m, m ∈ g.outgoing n → n ∈ g.nodes ∧ m ∈ g.nodes) ∧
  (∀ n p, p ∈ g.incoming n → n ∈ g.outgoing p ∧ p ∈ g.nodes)

/-- A topological-order certificate: the list is duplicate-free and
every outgoing edge of a listed node points strictly earlier in the
list. -/

def RespectsEdges (g : DepGraph) (r : List String) : Prop :=
  r.Nodup ∧ ∀ n ∈ r, ∀ m ∈ g.outgoing n, m ∈ r ∧ r.indexOf m < r.indexOf n

/-! ## The execution engine (`executeRoute` / `next`, src part_000 lines 222-275)

The engine state records the console trace, whether `context.error`
has been installed (by an `ErrorHandler`), and the handler execution
flag, plus an execution counter for the handler branch (an observable
of the semantics: how many times the `await handler(...)` call site
ran).  Exceptions abort the remaining actions of the throwing frame
and propagate through every `await` — state (side effects) survives,
so a run returns both an `Except` outcome and the final state. -/

inductive ErrVal where
  | handled
  | userErr (tag : String)
  | typeError
  deriving DecidableEq

inductive Event where
  | marker (tag : String)
  | errorResponse
  | dbg (msg : String)
  | warnLog (msg : String)
  deriving DecidableEq

structure EngParams where
  debug : Bool
  prod : Bool
  deriving DecidableEq

structure EngSt where
  trace : List Event
  errorInstalled : Bool
  handlerHasBeenExecuted : Bool
  handlerRuns : Nat
  deriving DecidableEq

/-- The `debug` logger created by `createLoggers`: prints only when the
configuration's `debug` flag is set. -/

def stDbg (ps : EngParams) (s : EngSt) (msg : String) : EngSt :=
  if ps.debug then { s with trace := s.trace ++ [.dbg msg] } else s

/-- The `warn` logger created by `createLoggers`: it, too, prints only
when the `debug` flag is set. -/

def stWarn (ps : EngParams) (s : EngSt) (msg : String) : EngSt :=
  if ps.debug then { s with trace := s.trace ++ [.warnLog msg] } else s

/-- Invoking `context.error`: when an `ErrorHandler` has installed the
responder it sends the error response and throws the `HandledError`
sentinel; otherwise the proxied read of `error` warns (absent key) and
calling `undefined` raises a `TypeError`. -/

def doCallError (ps : EngParams) (s : EngSt) : Except ErrVal Unit × EngSt :=
  if s.errorInstalled then
    (.error .handled, { s with trace := s.trace ++ [.errorResponse] })
  else
    (.error .typeError,
      stWarn ps s "Property error was not found on the context object.")

/-- Runs a user middleware body (a list of actions) with continuation
`k`: an exception from `k` or from a `throw` skips the remaining
actions and propagates. -/

def runActions (ps : EngParams) (k : EngSt → Except ErrVal Unit × EngSt) :
    List Action → EngSt → Except ErrVal Unit × EngSt
  | [], s => (.ok (), s)
  | .emit t :: rest, s => runActions ps k rest { s with trace := s.trace ++ [.marker t] }
  | .throwErr t :: _, s => (.error (.userErr t), s)
  | .callError :: rest, s =>
    match doCallError ps s with
    | (.error e, s2) => (.error e, s2)
    | (.ok _, s2) => runActions ps k rest s2
  | .callNext :: rest, s =>
    match k s with
    | (.ok _, s2) => runActions ps k rest s2
    | (.error e, s2) => (.error e, s2)

/-- Runs the route handler body. -/

def runHActions (ps : EngParams) : List HAction → EngSt → Except ErrVal Unit × EngSt
  | [], s => (.ok (), s)
  | .emit t :: rest, s => runHActions ps rest { s with trace := s.trace ++ [.marker t] }
  | .throwErr t :: _, s => (.error (.userErr t), s)
  | .callError :: rest, s =>
    match doCallError ps s with
    | (.error e, s2) => (.error e, s2)
    | (.ok _, s2) => runHActions ps rest s2

/-- The pre-continuation part of `ErrorHandler.handle`: the proxied
assignment `context.error = error` (which warns when a responder is
already installed) installs the responder. -/

def ehInstall (ps : EngParams) (s : EngSt) : EngSt :=
  let s1 :=
    if s.errorInstalled then
      stWarn ps s "Strate context property error is being reassigned."
    else s
  { s1 with errorInstalled := true }

/-- Translation of `ErrorHandler.handle` (ErrorHandler.ts lines 29-59):
install the error responder on the context, await the continuation
inside `try`, and in `catch`: return normally on the `HandledError`
sentinel; in production invoke `error()` (which sends the generic
fallback response and throws a fresh `HandledError`); otherwise log a
warning and rethrow. -/

def runEH (ps : EngParams) (k : EngSt → Except ErrVal Unit × EngSt) (s : EngSt) :
    Except ErrVal Unit × EngSt :=
  match k (ehInstall ps s) with
  | (.ok _, s3) => (.ok (), s3)
  | (.error .handled, s3) => (.ok (), s3)
  | (.error e, s3) =>
    if ps.prod then
      (.error .handled, { s3 with trace := s3.trace ++ [.errorResponse] })
    else
      (.error e, stWarn ps s3 "An error was thrown:")

/-- The `else` branch of `next`: record the debug line, set the
execution flag (and bump the execution counter) and run the handler. -/

def handlerBranch (ps : EngParams) (hprog : List HAction) (s : EngSt) :
    Except ErrVal Unit × EngSt :=
  let s1 := stDbg ps s "Running route handler"
  let s2 := { s1 with handlerHasBeenExecuted := true, handlerRuns := s1.handlerRuns + 1 }
  runHActions ps hprog s2

/-- Translation of `next(index)`, by recursion on the remaining suffix
of the execution order.  JavaScript truthiness: an index past the end
of the array *or an empty-string element* fails the
`if (middlewareArray[index])` test and runs the handler branch. -/

def nextRun (ps : EngParams) (data : String → MWBehavior) (hprog : List HAction) :
    List String → EngSt → Except ErrVal Unit × EngSt
  | [], s => handlerBranch ps hprog s
  | nm :: rest, s =>
    if nm = "" then handlerBranch ps hprog s
    else
      let s1 := stDbg ps s ("Running: " ++ nm)
      match data nm with
      | .prog acts => runActions ps (nextRun ps data hprog rest) acts s1
      | .errorHandler => runEH ps (nextRun ps data hprog rest) s1

inductive RouteError where
  | config (e : GraphError)
  | run (e : ErrVal)
  deriving DecidableEq

/-- Translation of `executeRoute`: resolve the middleware graph (a
failure there rejects the invocation), log the order and the skip list,
run the chain starting at `next()`, and afterwards log success or warn
that the handler was never reached.  A rejection from the chain
propagates to the caller of the invocation entry point. -/

def executeRoute (ps : EngParams) (mws : List MiddlewareInstance)
    (skip : Option (List String)) (hprog : List HAction) (s : EngSt) :
    Except RouteError Unit × EngSt :=
  let s0 := stDbg ps s "Generating middleware graph"
  match resolveMiddleware mws skip with
  | .error e => (.error (.config e), s0)
  | .ok (g, order) =>
    let s1 := stDbg ps s0
      ("Running middleware in the following order: " ++ String.intercalate " -> " order)
    let s2 :=
      match skip with
      | some l =>
        if l.length ≠ 0 then
          stDbg ps s1 ("The following middleware were skipped: " ++ String.intercalate ", " l)
        else s1
      | none => s1
    let data := fun nm =>
      match g.getNodeData nm with
      | some inst => inst.behavior
      | none => MWBehavior.prog []
    match nextRun ps data hprog order s2 with
    | (.ok _, s3) =>
      let s4 :=
        if s3.handlerHasBeenExecuted then
          stDbg ps s3 "Strate finished execution successfully."
        else
          stWarn ps s3
            "Strate finished execution successfully, but the called route handler was not executed."
      (.ok (), s4)
    | (.error e, s3) => (.error (.run e), s3)

/-! ## Engine lemmas -/

/-- The user-visible markers of a console trace (logger lines and
error responses stripped). -/

def markersOf (t : List Event) : List String :=
  t.filterMap (fun e => match e with | .marker tag => some tag | _ => none)

/-- The middleware-behavior assignment C2 quantifies over: each
middleware emits arbitrary pre markers, invokes and awaits its
continuation exactly once, and emits arbitrary post markers. -/

def onionProg (pres posts : String → List String) : String → MWBehavior :=
  fun nm => .prog ((pres nm).map .emit ++ .callNext :: (posts nm).map .emit)

/-- The initial engine state of a route invocation. -/

def engInit : EngSt := ⟨[], false, false, 0⟩

/-! ## Sentinel containment (C3) -/

/-- Behaviors that never invoke the error responder; what C3's
amendment requires of middleware positioned before the `ErrorHandler`
in the execution order. -/

def safeOutsideEH : MWBehavior → Prop
  | .errorHandler => True
  | .prog p => Action.callError ∉ p

/-- The middleware-behavior assignment for the C3 witness. -/

def c3Data : String → MWBehavior := fun nm =>
  if nm = "EH" then .errorHandler
  else if nm = "B" then .prog [.callError]
  else .prog [.callNext, .emit "x"]

/-! ## Handler execution multiplicity (C9) -/

/-- A behavior that invokes its continuation at most once
(`ErrorHandler.handle` awaits it exactly once). -/

def callsNextAtMostOnce : MWBehavior → Prop
  | .errorHandler => True
  | .prog p => p.count Action.callNext ≤ 1

/-- A behavior that contains a continuation invocation at all. -/

def hasNextCall : MWBehavior → Prop
  | .errorHandler => True
  | .prog p => Action.callNext ∈ p

end Strate

/-- Result classifier used by concrete statements: is the
`resolveMiddleware` outcome a dependency-cycle error? -/

def isCycleErrorResult :
    Except Strate.GraphError (Strate.DepGraph × List String) → Bool
  | .error (.cycle _) => true
  | _ => false

/-- Result classifier used by concrete statements: did
`resolveMiddleware` return an execution order? -/

def isOkResult :
    Except Strate.GraphError (Strate.DepGraph × List String) → Bool
  | .ok _ => true
  | _ => false

/-- Concrete middleware for C7: `A` and `B` depend on each other (a
declared cycle) while `C` depends on the absent identity `"X"`. -/

def c7A : Strate.MiddlewareInstance := ⟨none, "A", none, [.str "undefinedB"], .prog []⟩

def c7B : Strate.MiddlewareInstance := ⟨none, "B", none, [.str "undefinedA"], .prog []⟩

def c7C : Strate.MiddlewareInstance := ⟨none, "C", none, [.str "X"], .prog []⟩

/-- Concrete middleware for the C1 witness: `B` depends on `A`. -/

def c1A : Strate.MiddlewareInstance := ⟨none, "A", none, [], .prog []⟩

def c1B : Strate.MiddlewareInstance := ⟨none, "B", none, [.str "undefinedA"], .prog []⟩

/-- Concrete instances for the C6 witness: `B` declares a dependency
on the string identity `"X"`, which no configured middleware has;
`skip` is empty, so the missing-dependency error is raised. -/

def mwB6 : Strate.MiddlewareInstance :=
  ⟨none, "B", none, [.str "X"], .prog []⟩

/-- Heap and calls for the C10 counterexample: a shared base
configuration at reference 0 (`{ debug: false, middleware: [] }`), a
first route invocation setting `debug: true`, and a second invocation
reusing the same base. -/

def c10Heap0 : List Strate.CfgObj := [⟨some false, some [], none⟩]

def c10Call1 : List Strate.CfgObj × Nat :=
  Strate.loadConfiguration c10Heap0 0 ⟨some true, none, none⟩

def c10Call2 : List Strate.CfgObj × Nat :=
  Strate.loadConfiguration c10Call1.1 0 ⟨none, none, none⟩

/-- A concrete context for the C8 witness: the seeded `strate` key plus
a stored object under `"data"`. -/

def wCtx8 : Strate.Ctx :=
  ⟨[("strate", Strate.JSVal.obj []), ("data", Strate.JSVal.obj [("k0", "v0")])]⟩

namespace Strate

theorem lookupEntry_setEntry_self (l : List (String × JSVal)) (k : String) (v : JSVal) :
    (setEntry l k v).lookup k = some v := by
  induction l with
  | nil => simp [setEntry]
  | cons p rest ih =>
    by_cases h : p.1 = k
    · simp [setEntry, h, List.lookup]
    · simp only [setEntry, if_neg h, List.lookup]
      have : (k == p.1) = false := by
        simp [BEq.beq]
        exact fun he => h he.symm
      simp [this, ih]

theorem any_key_of_lookup {l : List (String × JSVal)} {k : String} {x : JSVal}
    (h : l.lookup k = some x) : l.any (fun p => p.1 == k) = true := by
  induction l with
  | nil => simp [List.lookup] at h
  | cons p rest ih =>
    simp only [List.lookup] at h
    by_cases he : k = p.1
    · simp [List.any_cons, he]
    · have hb : (k == p.1) = false := by simpa using he
      rw [hb] at h
      simp only [List.any_cons, Bool.or_eq_true]
      exact Or.inr (ih h)

theorem hasOwn_of_lookup {c : Ctx} {k : String} {x : JSVal}
    (h : lookupEntry c k = some x) : hasOwn c k = true :=
  any_key_of_lookup h

/-! ## Graph construction lemmas -/

theorem hasNode_iff (g : DepGraph) (n : String) :
    g.hasNode n = true ↔ n ∈ g.nodes := by
  simp [DepGraph.hasNode]

theorem addNode_nodes_mem (g : DepGraph) (n : String) (d : MiddlewareInstance) (x : String) :
    x ∈ (g.addNode n d).nodes ↔ x ∈ g.nodes ∨ x = n := by
  unfold DepGraph.addNode
  by_cases h : g.hasNode n
  · have hn : n ∈ g.nodes := (hasNode_iff g n).mp h
    rw [if_pos h]
    constructor
    · exact Or.inl
    · rintro (hx | rfl)
      · exact hx
      · exact hn
  · rw [if_neg h]
    simp [List.mem_append]

theorem addMiddlewareToGraph_nodes_mem (mws : List MiddlewareInstance) :
    ∀ (g : DepGraph) (x : String),
      x ∈ (addMiddlewareToGraph g mws).nodes ↔
        x ∈ g.nodes ∨ x ∈ mws.map instanceName := by
  induction mws with
  | nil => intro g x; simp [addMiddlewareToGraph]
  | cons inst rest ih =>
    intro g x
    show x ∈ (addMiddlewareToGraph
        (if g.hasNode (instanceName inst) then g.setNodeData (instanceName inst) inst
         else g.addNode (instanceName inst) inst) rest).nodes ↔ _
    rw [ih]
    by_cases h : g.hasNode (instanceName inst)
    · have hn : instanceName inst ∈ g.nodes := (hasNode_iff g _).mp h
      rw [if_pos h]
      show x ∈ g.nodes ∨ _ ↔ _
      constructor
      · rintro (hx | hx)
        · exact Or.inl hx
        · exact Or.inr (by simp [hx])
      · rintro (hx | hx)
        · exact Or.inl hx
        · rcases List.mem_map.mp hx with ⟨i, hi, hni⟩
          rcases List.mem_cons.mp hi with rfl | hi
          · exact Or.inl (hni ▸ hn)
          · exact Or.inr (List.mem_map.mpr ⟨i, hi, hni⟩)
    · rw [if_neg h]
      rw [show ∀ y, (y ∈ (g.addNode (instanceName inst) inst).nodes) =
            (y ∈ g.nodes ∨ y = instanceName inst) from
        fun y => propext (addNode_nodes_mem g _ inst y)]
      constructor
      · rintro (⟨hx | rfl⟩ | hx)
        · exact Or.inl hx
        · exact Or.inr (by simp)
        · exact Or.inr (by simp [hx])
      · rintro (hx | hx)
        · exact Or.inl (Or.inl hx)
        · rcases List.mem_map.mp hx with ⟨i, hi, hni⟩
          rcases List.mem_cons.mp hi with rfl | hi
          · exact Or.inl (Or.inr hni.symm)
          · exact Or.inr (List.mem_map.mpr ⟨i, hi, hni⟩)

theorem addMiddlewareToGraph_outgoing (mws : List MiddlewareInstance) :
    ∀ (g : DepGraph), (∀ n, g.outgoing n = []) →
      ∀ n, (addMiddlewareToGraph g mws).outgoing n = [] := by
  induction mws with
  | nil => intro g h n; exact h n
  | cons inst rest ih =>
    intro g h n
    show (addMiddlewareToGraph
        (if g.hasNode (instanceName inst) then g.setNodeData (instanceName inst) inst
         else g.addNode (instanceName inst) inst) rest).outgoing n = []
    apply ih
    intro m
    by_cases hh : g.hasNode (instanceName inst)
    · rw [if_pos hh]
      exact h m
    · rw [if_neg hh]
      unfold DepGraph.addNode
      rw [if_neg hh]
      show (if m = instanceName inst then [] else g.outgoing m) = []
      by_cases h3 : m = instanceName inst <;> simp [h3, h m]

theorem addMiddlewareToGraph_incoming (mws : List MiddlewareInstance) :
    ∀ (g : DepGraph), (∀ n, g.incoming n = []) →
      ∀ n, (addMiddlewareToGraph g mws).incoming n = [] := by
  induction mws with
  | nil => intro g h n; exact h n
  | cons inst rest ih =>
    intro g h n
    show (addMiddlewareToGraph
        (if g.hasNode (instanceName inst) then g.setNodeData (instanceName inst) inst
         else g.addNode (instanceName inst) inst) rest).incoming n = []
    apply ih
    intro m
    by_cases hh : g.hasNode (instanceName inst)
    · rw [if_pos hh]
      exact h m
    · rw [if_neg hh]
      unfold DepGraph.addNode
      rw [if_neg hh]
      show (if m = instanceName inst then [] else g.incoming m) = []
      by_cases h3 : m = instanceName inst <;> simp [h3, h m]

theorem addMiddlewareToGraph_nodup (mws : List MiddlewareInstance) :
    ∀ (g : DepGraph), g.nodes.Nodup → (addMiddlewareToGraph g mws).nodes.Nodup := by
  induction mws with
  | nil => intro g h; exact h
  | cons inst rest ih =>
    intro g h
    show (addMiddlewareToGraph
        (if g.hasNode (instanceName inst) then g.setNodeData (instanceName inst) inst
         else g.addNode (instanceName inst) inst) rest).nodes.Nodup
    apply ih
    by_cases hh : g.hasNode (instanceName inst)
    · rw [if_pos hh]
      exact h
    · rw [if_neg hh]
      unfold DepGraph.addNode
      rw [if_neg hh]
      show (g.nodes ++ [instanceName inst]).Nodup
      have hni : instanceName inst ∉ g.nodes :=
        fun hx => hh ((hasNode_iff g _).mpr hx)
      simp only [List.nodup_append, List.nodup_singleton, true_and]
      refine ⟨h, ?_⟩
      intro x hx
      simp only [List.mem_singleton]
      intro he
      exact hni (he ▸ hx)

/-- The graph the node-building phase produces from an empty graph:
well-formed, edge-free, with exactly the configured identities. -/

theorem baseGraph_props (mws : List MiddlewareInstance) :
    (∀ x, x ∈ (addMiddlewareToGraph DepGraph.empty mws).nodes ↔
      x ∈ mws.map instanceName) ∧
    (∀ n, (addMiddlewareToGraph DepGraph.empty mws).outgoing n = []) ∧
    (∀ n, (addMiddlewareToGraph DepGraph.empty mws).incoming n = []) ∧
    (addMiddlewareToGraph DepGraph.empty mws).nodes.Nodup := by
  refine ⟨fun x => ?_, ?_, ?_, ?_⟩
  · rw [addMiddlewareToGraph_nodes_mem]
    simp [DepGraph.empty]
  · exact addMiddlewareToGraph_outgoing mws DepGraph.empty (fun _ => rfl)
  · exact addMiddlewareToGraph_incoming mws DepGraph.empty (fun _ => rfl)
  · exact addMiddlewareToGraph_nodup mws DepGraph.empty (by simp [DepGraph.empty])

/-! ## Dependency-loop lemmas -/

theorem addDependency_ok_of_mem {g : DepGraph} {a b : String}
    (ha : a ∈ g.nodes) (hb : b ∈ g.nodes) :
    ∃ g2, g.addDependency a b = .ok g2 := by
  unfold DepGraph.addDependency
  rw [if_neg (by simp [(hasNode_iff g a).mpr ha]),
      if_neg (by simp [(hasNode_iff g b).mpr hb])]
  exact ⟨_, rfl⟩

theorem addDependency_error_of_missing {g : DepGraph} {a b : String}
    (hb : b ∉ g.nodes) :
    ∃ e, g.addDependency a b = .error e := by
  unfold DepGraph.addDependency
  by_cases ha : g.hasNode a
  · rw [if_neg (by simp [ha])]
    rw [if_pos (show ¬ g.hasNode b = true from
      fun hx => hb ((hasNode_iff g b).mp hx))]
    exact ⟨_, rfl⟩
  · rw [if_pos (by simp [ha])]
    exact ⟨_, rfl⟩

theorem addDependency_ok_spec {g g2 : DepGraph} {a b : String}
    (h : g.addDependency a b = .ok g2) :
    g2.nodes = g.nodes ∧ g2.dat = g.dat ∧
    b ∈ g2.outgoing a ∧
    (∀ n m, m ∈ g.outgoing n → m ∈ g2.outgoing n) ∧
    (∀ n m, m ∈ g2.outgoing n → m ∈ g.outgoing n ∨ (n = a ∧ m = b)) ∧
    (∀ n p, p ∈ g.incoming n → p ∈ g2.incoming n) ∧
    (∀ n p, p ∈ g2.incoming n → p ∈ g.incoming n ∨ (n = b ∧ p = a)) := by
  unfold DepGraph.addDependency at h
  by_cases ha : g.hasNode a
  · by_cases hb : g.hasNode b
    · rw [if_neg (by simp [ha]), if_neg (by simp [hb])] at h
      injection h with h2
      subst h2
      refine ⟨rfl, rfl, ?_, ?_, ?_, ?_, ?_⟩
      · show b ∈ (if a = a then _ else _)
        rw [if_pos rfl]
        by_cases hmem : b ∈ g.outgoing a <;> simp [hmem]
      · intro n m hm
        show m ∈ (if n = a then _ else _)
        by_cases hn : n = a
        · subst hn
          rw [if_pos rfl]
          by_cases hmem : b ∈ g.outgoing n <;> simp [hmem, hm]
        · rw [if_neg hn]
          exact hm
      · intro n m hm
        by_cases hn : n = a
        · subst hn
          rw [show (({ g with
                outgoing := fun m =>
                  if m = n then (if b ∈ g.outgoing n then g.outgoing n else g.outgoing n ++ [b])
                  else g.outgoing m
                incoming := fun m =>
                  if m = b then (if n ∈ g.incoming b then g.incoming b else g.incoming b ++ [n])
                  else g.incoming m } : DepGraph).outgoing n) =
              (if b ∈ g.outgoing n then g.outgoing n else g.outgoing n ++ [b]) from by
            show (if n = n then _ else _) = _
            rw [if_pos rfl]] at hm
          by_cases hmem : b ∈ g.outgoing n
          · rw [if_pos hmem] at hm
            exact Or.inl hm
          · rw [if_neg hmem] at hm
            rcases List.mem_append.mp hm with hm | hm
            · exact Or.inl hm
            · exact Or.inr ⟨rfl, List.mem_singleton.mp hm⟩
        · rw [show (({ g with
                outgoing := fun m =>
                  if m = a then (if b ∈ g.outgoing a then g.outgoing a else g.outgoing a ++ [b])
                  else g.outgoing m
                incoming := fun m =>
                  if m = b then (if a ∈ g.incoming b then g.incoming b else g.incoming b ++ [a])
                  else g.incoming m } : DepGraph).outgoing n) = g.outgoing n from by
            show (if n = a then _ else _) = _
            rw [if_neg hn]] at hm
          exact Or.inl hm
      · intro n p hp
        show p ∈ (if n = b then _ else _)
        by_cases hn : n = b
        · subst hn
          rw [if_pos rfl]
          by_cases hmem : a ∈ g.incoming n <;> simp [hmem, hp]
        · rw [if_neg hn]
          exact hp
      · intro n p hp
        by_cases hn : n = b
        · subst hn
          rw [show (({ g with
                outgoing := fun m =>
                  if m = a then (if n ∈ g.outgoing a then g.outgoing a else g.outgoing a ++ [n])
                  else g.outgoing m
                incoming := fun m =>
                  if m = n then (if a ∈ g.incoming n then g.incoming n else g.incoming n ++ [a])
                  else g.incoming m } : DepGraph).incoming n) =
              (if a ∈ g.incoming n then g.incoming n else g.incoming n ++ [a]) from by
            show (if n = n then _ else _) = _
            rw [if_pos rfl]] at hp
          by_cases hmem : a ∈ g.incoming n
          · rw [if_pos hmem] at hp
            exact Or.inl hp
          · rw [if_neg hmem] at hp
            rcases List.mem_append.mp hp with hp | hp
            · exact Or.inl hp
            · exact Or.inr ⟨rfl, List.mem_singleton.mp hp⟩
        · rw [show (({ g with
                outgoing := fun m =>
                  if m = a then (if b ∈ g.outgoing a then g.outgoing a else g.outgoing a ++ [b])
                  else g.outgoing m
                incoming := fun m =>
                  if m = b then (if a ∈ g.incoming b then g.incoming b else g.incoming b ++ [a])
                  else g.incoming m } : DepGraph).incoming n) = g.incoming n from by
            show (if n = b then _ else _) = _
            rw [if_neg hn]] at hp
          exact Or.inl hp
    · rw [if_neg (by simp [ha]), if_pos (by simp [hb])] at h
      exact absurd h (by simp)
  · rw [if_pos (by simp [ha])] at h
    exact absurd h (by simp)

/-- When the instance is a node and every dependency of the list
resolves to a node, the inner dependency loop succeeds; nodes and data
are untouched, all listed edges are present afterwards, and edges only
grow (and only by listed edges). -/

theorem addInstDeps_ok (skip : Option (List String)) (instNm : String) :
    ∀ (ds : List MWRef) (g : DepGraph), instNm ∈ g.nodes →
      (∀ d ∈ ds, getMiddlewareName d ∈ g.nodes) →
      ∃ g2, addInstDeps skip instNm g ds = .ok g2 ∧
        g2.nodes = g.nodes ∧ g2.dat = g.dat ∧
        (∀ d ∈ ds, getMiddlewareName d ∈ g2.outgoing instNm) ∧
        (∀ n m, m ∈ g.outgoing n → m ∈ g2.outgoing n) ∧
        (∀ n m, m ∈ g2.outgoing n →
          m ∈ g.outgoing n ∨ (n = instNm ∧ ∃ d ∈ ds, getMiddlewareName d = m)) ∧
        (∀ n p, p ∈ g2.incoming n → p ∈ g.incoming n ∨
          (p = instNm ∧ ∃ d ∈ ds, getMiddlewareName d = n)) := by
  intro ds
  induction ds with
  | nil =>
    intro g hin _
    exact ⟨g, rfl, rfl, rfl, by simp, fun n m hm => hm,
      fun n m hm => Or.inl hm, fun n p hp => Or.inl hp⟩
  | cons d rest ih =>
    intro g hin hds
    obtain ⟨g1, hg1⟩ := addDependency_ok_of_mem hin (hds d (by simp))
    obtain ⟨hn1, hd1, hedge1, hmono1, hconv1, hmonoi1, hconvi1⟩ := addDependency_ok_spec hg1
    obtain ⟨g2, hg2, hn2, hd2, hedges2, hmono2, hconv2, hconvi2⟩ :=
      ih g1 (hn1 ▸ hin) (fun x hx => hn1 ▸ hds x (List.mem_cons_of_mem _ hx))
    refine ⟨g2, ?_, hn2.trans hn1, hd2.trans hd1, ?_, ?_, ?_, ?_⟩
    · show (match g.addDependency instNm (getMiddlewareName d) with
        | .ok g2 => addInstDeps skip instNm g2 rest
        | .error _ => .error (mkDepError skip instNm (getMiddlewareName d))) = Except.ok g2
      rw [hg1]
      exact hg2
    · intro x hx
      rcases List.mem_cons.mp hx with rfl | hx
      · exact hmono2 _ _ hedge1
      · exact hedges2 x hx
    · intro n m hm
      exact hmono2 n m (hmono1 n m hm)
    · intro n m hm
      rcases hconv2 n m hm with hm2 | ⟨rfl, d2, hd2m, hdn⟩
      · rcases hconv1 n m hm2 with hm3 | ⟨rfl, rfl⟩
        · exact Or.inl hm3
        · exact Or.inr ⟨rfl, d, by simp, rfl⟩
      · exact Or.inr ⟨rfl, d2, List.mem_cons_of_mem _ hd2m, hdn⟩
    · intro n p hp
      rcases hconvi2 n p hp with hp2 | ⟨rfl, d2, hd2m, hdn⟩
      · rcases hconvi1 n p hp2 with hp3 | ⟨rfl, rfl⟩
        · exact Or.inl hp3
        · exact Or.inr ⟨rfl, d, by simp, rfl⟩
      · exact Or.inr ⟨rfl, d2, List.mem_cons_of_mem _ hd2m, hdn⟩

/-- When the instance is a node but some dependency of the list is
missing, the inner loop fails with the error for the first missing
dependency; the error names the instance and a genuinely missing
declared dependency, classified by skip membership. -/

theorem addInstDeps_err (skip : Option (List String)) (instNm : String) :
    ∀ (ds : List MWRef) (g : DepGraph), instNm ∈ g.nodes →
      (∃ d ∈ ds, getMiddlewareName d ∉ g.nodes) →
      ∃ dn, addInstDeps skip instNm g ds = .error (mkDepError skip instNm dn) ∧
        dn ∉ g.nodes ∧ ∃ d ∈ ds, getMiddlewareName d = dn := by
  intro ds
  induction ds with
  | nil =>
    rintro g - ⟨d, hd, -⟩
    exact absurd hd (List.not_mem_nil d)
  | cons d rest ih =>
    intro g hin hmiss
    by_cases hd : getMiddlewareName d ∈ g.nodes
    · obtain ⟨g1, hg1⟩ := addDependency_ok_of_mem hin hd
      obtain ⟨hn1, _, _, _, _, _, _⟩ := addDependency_ok_spec hg1
      have hmiss2 : ∃ d2 ∈ rest, getMiddlewareName d2 ∉ g1.nodes := by
        rcases hmiss with ⟨d2, hd2, hd2m⟩
        rcases List.mem_cons.mp hd2 with rfl | hd2
        · exact absurd hd hd2m
        · exact ⟨d2, hd2, hn1 ▸ hd2m⟩
      obtain ⟨dn, herr, hdn, d2, hd2, hdneq⟩ := ih g1 (hn1 ▸ hin) hmiss2
      refine ⟨dn, ?_, hn1 ▸ hdn, d2, List.mem_cons_of_mem _ hd2, hdneq⟩
      show (match g.addDependency instNm (getMiddlewareName d) with
        | .ok g2 => addInstDeps skip instNm g2 rest
        | .error _ => .error (mkDepError skip instNm (getMiddlewareName d))) = _
      rw [hg1]
      exact herr
    · obtain ⟨e, he⟩ := addDependency_error_of_missing hd
      refine ⟨getMiddlewareName d, ?_, hd, d, by simp, rfl⟩
      show (match g.addDependency instNm (getMiddlewareName d) with
        | .ok g2 => addInstDeps skip instNm g2 rest
        | .error _ => .error (mkDepError skip instNm (getMiddlewareName d))) = _
      rw [he]

/-- The outer dependency loop, success case: every declared dependency
of every configured instance resolves to a node.  All declared edges
exist afterwards, and every edge (and incoming entry) comes from a
declaration. -/

theorem addAllDependencies_ok (skip : Option (List String)) :
    ∀ (rem : List MiddlewareInstance) (g : DepGraph),
      (∀ inst ∈ rem, instanceName inst ∈ g.nodes) →
      (∀ inst ∈ rem, ∀ d ∈ inst.dependencies, getMiddlewareName d ∈ g.nodes) →
      ∃ g2, addAllDependencies skip g rem = .ok g2 ∧
        g2.nodes = g.nodes ∧ g2.dat = g.dat ∧
        (∀ inst ∈ rem, ∀ d ∈ inst.dependencies,
          getMiddlewareName d ∈ g2.outgoing (instanceName inst)) ∧
        (∀ n m, m ∈ g.outgoing n → m ∈ g2.outgoing n) ∧
        (∀ n m, m ∈ g2.outgoing n → m ∈ g.outgoing n ∨
          ∃ inst ∈ rem, instanceName inst = n ∧
            ∃ d ∈ inst.dependencies, getMiddlewareName d = m) ∧
        (∀ n p, p ∈ g2.incoming n → p ∈ g.incoming n ∨
          ∃ inst ∈ rem, instanceName inst = p ∧
            ∃ d ∈ inst.dependencies, getMiddlewareName d = n) := by
  intro rem
  induction rem with
  | nil =>
    intro g _ _
    exact ⟨g, rfl, rfl, rfl, by simp, fun n m hm => hm,
      fun n m hm => Or.inl hm, fun n p hp => Or.inl hp⟩
  | cons inst rest ih =>
    intro g hins hds
    obtain ⟨g1, hg1, hn1, hd1, hedges1, hmono1, hconv1, hconvi1⟩ :=
      addInstDeps_ok skip (instanceName inst) inst.dependencies g
        (hins inst (by simp)) (hds inst (by simp))
    obtain ⟨g2, hg2, hn2, hd2, hedges2, hmono2, hconv2, hconvi2⟩ :=
      ih g1 (fun i hi => hn1 ▸ hins i (List.mem_cons_of_mem _ hi))
        (fun i hi d hd => hn1 ▸ hds i (List.mem_cons_of_mem _ hi) d hd)
    refine ⟨g2, ?_, hn2.trans hn1, hd2.trans hd1, ?_, ?_, ?_, ?_⟩
    · show (match addInstDeps skip (instanceName inst) g inst.dependencies with
        | Except.error e => Except.error e
        | Except.ok g2 => addAllDependencies skip g2 rest) = Except.ok g2
      rw [hg1]
      exact hg2
    · intro i hi d hd
      rcases List.mem_cons.mp hi with rfl | hi
      · exact hmono2 _ _ (hedges1 d hd)
      · exact hedges2 i hi d hd
    · intro n m hm
      exact hmono2 n m (hmono1 n m hm)
    · intro n m hm
      rcases hconv2 n m hm with hm2 | ⟨i, hi, hni, d, hd, hdn⟩
      · rcases hconv1 n m hm2 with hm3 | ⟨rfl, d, hd, hdn⟩
        · exact Or.inl hm3
        · exact Or.inr ⟨inst, by simp, rfl, d, hd, hdn⟩
      · exact Or.inr ⟨i, List.mem_cons_of_mem _ hi, hni, d, hd, hdn⟩
    · intro n p hp
      rcases hconvi2 n p hp with hp2 | ⟨i, hi, hni, d, hd, hdn⟩
      · rcases hconvi1 n p hp2 with hp3 | ⟨rfl, d, hd, hdn⟩
        · exact Or.inl hp3
        · exact Or.inr ⟨inst, by simp, rfl, d, hd, hdn⟩
      · exact Or.inr ⟨i, List.mem_cons_of_mem _ hi, hni, d, hd, hdn⟩

/-- The outer dependency loop, failure case: some configured instance
declares a dependency that is not a node.  The loop fails with the
error for the first missing pair, which names a configured instance and
a genuinely missing declared dependency. -/

theorem addAllDependencies_err (skip : Option (List String)) :
    ∀ (rem : List MiddlewareInstance) (g : DepGraph),
      (∀ inst ∈ rem, instanceName inst ∈ g.nodes) →
      (∃ inst ∈ rem, ∃ d ∈ inst.dependencies, getMiddlewareName d ∉ g.nodes) →
      ∃ iNm dn, addAllDependencies skip g rem = .error (mkDepError skip iNm dn) ∧
        dn ∉ g.nodes ∧
        ∃ inst ∈ rem, instanceName inst = iNm ∧
          ∃ d ∈ inst.dependencies, getMiddlewareName d = dn := by
  intro rem
  induction rem with
  | nil =>
    rintro g - ⟨inst, hinst, -⟩
    exact absurd hinst (List.not_mem_nil inst)
  | cons inst rest ih =>
    intro g hins hmiss
    by_cases hinm : ∃ d ∈ inst.dependencies, getMiddlewareName d ∉ g.nodes
    · obtain ⟨dn, herr, hdn, d, hd, hdneq⟩ :=
        addInstDeps_err skip (instanceName inst) inst.dependencies g
          (hins inst (by simp)) hinm
      refine ⟨instanceName inst, dn, ?_, hdn, inst, by simp, rfl, d, hd, hdneq⟩
      show (match addInstDeps skip (instanceName inst) g inst.dependencies with
        | Except.error e => Except.error e
        | Except.ok g2 => addAllDependencies skip g2 rest) = _
      rw [herr]
    · push_neg at hinm
      obtain ⟨g1, hg1, hn1, _, _, _, _, _⟩ :=
        addInstDeps_ok skip (instanceName inst) inst.dependencies g
          (hins inst (by simp)) hinm
      have hmiss2 : ∃ i ∈ rest, ∃ d ∈ i.dependencies, getMiddlewareName d ∉ g1.nodes := by
        rcases hmiss with ⟨i, hi, d, hd, hdm⟩
        rcases List.mem_cons.mp hi with rfl | hi
        · exact absurd (hinm d hd) hdm
        · exact ⟨i, hi, d, hd, hn1 ▸ hdm⟩
      obtain ⟨iNm, dn, herr, hdn, i, hi, hni, d, hd, hdneq⟩ :=
        ih g1 (fun i2 hi2 => hn1 ▸ hins i2 (List.mem_cons_of_mem _ hi2)) hmiss2
      refine ⟨iNm, dn, ?_, hn1 ▸ hdn, i, List.mem_cons_of_mem _ hi, hni, d, hd, hdneq⟩
      show (match addInstDeps skip (instanceName inst) g inst.dependencies with
        | Except.error e => Except.error e
        | Except.ok g2 => addAllDependencies skip g2 rest) = _
      rw [hg1]
      exact herr

/-! ## List helper lemmas -/

theorem nodup_subset_length_le {l1 l2 : List String} (h1 : l1.Nodup)
    (h2 : ∀ x ∈ l1, x ∈ l2) : l1.length ≤ l2.length := by
  calc l1.length = l1.toFinset.card := (List.toFinset_card_of_nodup h1).symm
    _ ≤ l2.toFinset.card := Finset.card_le_card
        (fun x hx => List.mem_toFinset.mpr (h2 x (List.mem_toFinset.mp hx)))
    _ ≤ l2.length := List.toFinset_card_le l2

theorem head_of_drop_indexOf {l : List String} {a : String} (h : a ∈ l) :
    (l.drop (List.indexOf a l)).head? = some a := by
  induction l with
  | nil => exact absurd h (List.not_mem_nil a)
  | cons b rest ih =>
    by_cases hb : b = a
    · subst hb
      rw [List.indexOf_cons_self]
      rfl
    · rw [List.indexOf_cons_ne rest hb]
      rw [List.drop_succ_cons]
      exact ih (List.mem_of_ne_of_mem (fun he => hb he.symm) h)

theorem getLast_of_drop {l : List String} {i : Nat} (h : i < l.length) :
    (l.drop i).getLast? = l.getLast? := by
  induction l generalizing i with
  | nil => simp at h
  | cons b rest ih =>
    cases i with
    | zero => rfl
    | succ j =>
      rw [List.drop_succ_cons]
      have hj : j < rest.length := by simpa using h
      rw [ih hj]
      rcases rest with _ | ⟨c, rest2⟩
      · simp at hj
      · rfl

theorem chain'_head_or_pred {R : String → String → Prop} :
    ∀ (l : List String), List.Chain' R l → ∀ x ∈ l,
      l.head? = some x ∨ ∃ y, R y x := by
  intro l
  induction l with
  | nil => simp
  | cons a rest ih =>
    intro hch x hx
    rcases List.mem_cons.mp hx with rfl | hx
    · exact Or.inl rfl
    · rcases ih hch.tail x hx with hh | hy
      · exact Or.inr ⟨a, (List.chain'_cons'.mp hch).1 x hh⟩
      · exact Or.inr hy

/-! ## DFS lemmas

Four facts about the fueled DFS, each proved for one step (`dfs`) and
propagated through the sequential driver (`runList`): the result list
only grows, contains the start node, and gains no node of the current
path; it stays a `RespectsEdges` certificate; with enough fuel on a
well-formed graph the fuel and stray-node errors are unreachable; and
a cycle error implies a genuine graph cycle. -/

theorem runList_shape (step : String → List String → Except GraphError (List String))
    (P : String → Prop)
    (hstep : ∀ c res res', step c res = .ok res' →
      ∃ t, res' = res ++ t ∧ c ∈ res' ∧ ∀ x ∈ t, P x) :
    ∀ (cs : List String) (res res' : List String),
      runList step cs res = .ok res' →
      ∃ t, res' = res ++ t ∧ (∀ c ∈ cs, c ∈ res') ∧ ∀ x ∈ t, P x := by
  intro cs
  induction cs with
  | nil =>
    intro res res' h
    injection h with h2
    subst h2
    exact ⟨[], by simp, by simp, by simp⟩
  | cons c rest ih =>
    intro res res' h
    have h0 : (match step c res with
      | Except.error e => Except.error e
      | Except.ok r => runList step rest r) = Except.ok res' := h
    rcases hc : step c res with e | r
    · rw [hc] at h0
      exact absurd h0 (by simp)
    · rw [hc] at h0
      obtain ⟨t1, ht1, hcm, hP1⟩ := hstep c res r hc
      obtain ⟨t2, ht2, hrest, hP2⟩ := ih r res' h0
      refine ⟨t1 ++ t2, by rw [ht2, ht1, List.append_assoc], ?_, ?_⟩
      · intro x hx
        rcases List.mem_cons.mp hx with rfl | hx
        · rw [ht2]
          exact List.mem_append.mpr (Or.inl hcm)
        · exact hrest x hx
      · intro x hx
        rcases List.mem_append.mp hx with hx | hx
        · exact hP1 x hx
        · exact hP2 x hx

theorem dfs_shape (g : DepGraph) :
    ∀ (fuel : Nat) (start : String) (path res res' : List String),
      dfs g fuel start path res = .ok res' →
      ∃ t, res' = res ++ t ∧ start ∈ res' ∧ ∀ x ∈ t, x ∉ path := by
  intro fuel
  induction fuel with
  | zero =>
    intro start path res res' h
    exact absurd h (by simp [dfs])
  | succ f ih =>
    intro start path res res' h
    simp only [dfs] at h
    by_cases h1 : start ∈ res
    · rw [if_pos h1] at h
      injection h with h2
      subst h2
      exact ⟨[], by simp, h1, by simp⟩
    · rw [if_neg h1] at h
      by_cases h2 : start ∈ path
      · rw [if_pos h2] at h
        exact absurd h (by simp)
      · rw [if_neg h2] at h
        by_cases h3 : start ∈ g.nodes
        · rw [if_pos h3] at h
          rcases hr : runList (fun c r => dfs g f c (path ++ [start]) r)
              (g.outgoing start) res with e | r
          · rw [hr] at h
            exact absurd h (by simp)
          · rw [hr] at h
            injection h with h4
            subst h4
            obtain ⟨t, ht, hcs, hP⟩ := runList_shape _ (fun x => x ∉ path ++ [start])
              (fun c res res' hc => ih c (path ++ [start]) res res' hc)
              (g.outgoing start) res r hr
            refine ⟨t ++ [start], by rw [ht, List.append_assoc], by simp, ?_⟩
            intro x hx
            rcases List.mem_append.mp hx with hx | hx
            · exact fun hxp => hP x hx (List.mem_append.mpr (Or.inl hxp))
            · rw [List.mem_singleton.mp hx]
              exact h2
        · rw [if_neg h3] at h
          exact absurd h (by simp)

theorem runList_preserve (step : String → List String → Except GraphError (List String))
    (Q : List String → Prop)
    (hstep : ∀ c res res', step c res = .ok res' → Q res → Q res') :
    ∀ (cs : List String) (res res' : List String),
      runList step cs res = .ok res' → Q res → Q res' := by
  intro cs
  induction cs with
  | nil =>
    intro res res' h hq
    injection h with h2
    subst h2
    exact hq
  | cons c rest ih =>
    intro res res' h hq
    have h0 : (match step c res with
      | Except.error e => Except.error e
      | Except.ok r => runList step rest r) = Except.ok res' := h
    rcases hc : step c res with e | r
    · rw [hc] at h0
      exact absurd h0 (by simp)
    · rw [hc] at h0
      exact ih r res' h0 (hstep c res r hc hq)

theorem dfs_respects (g : DepGraph) :
    ∀ (fuel : Nat) (start : String) (path res res' : List String),
      dfs g fuel start path res = .ok res' →
      RespectsEdges g res → RespectsEdges g res' := by
  intro fuel
  induction fuel with
  | zero =>
    intro start path res res' h
    exact absurd h (by simp [dfs])
  | succ f ih =>
    intro start path res res' h hq
    simp only [dfs] at h
    by_cases h1 : start ∈ res
    · rw [if_pos h1] at h
      injection h with h2
      subst h2
      exact hq
    · rw [if_neg h1] at h
      by_cases h2 : start ∈ path
      · rw [if_pos h2] at h
        exact absurd h (by simp)
      · rw [if_neg h2] at h
        by_cases h3 : start ∈ g.nodes
        · rw [if_pos h3] at h
          rcases hr : runList (fun c r => dfs g f c (path ++ [start]) r)
              (g.outgoing start) res with e | r
          · rw [hr] at h
            exact absurd h (by simp)
          · rw [hr] at h
            injection h with h4
            subst h4
            have hrresp : RespectsEdges g r :=
              runList_preserve _ (RespectsEdges g)
                (fun c res res' hc => ih c (path ++ [start]) res res' hc)
                (g.outgoing start) res r hr hq
            obtain ⟨t, ht, hcs, hP⟩ := runList_shape _ (fun x => x ∉ path ++ [start])
              (fun c res res' hc => dfs_shape g f c (path ++ [start]) res res' hc)
              (g.outgoing start) res r hr
            have hstartr : start ∉ r := by
              rw [ht]
              intro hx
              rcases List.mem_append.mp hx with hx | hx
              · exact h1 hx
              · exact hP start hx (List.mem_append.mpr (Or.inr (by simp)))
            refine ⟨?_, ?_⟩
            · simp only [List.nodup_append, List.nodup_singleton, true_and]
              refine ⟨hrresp.1, ?_⟩
              intro x hx
              simp only [List.mem_singleton]
              intro he
              exact hstartr (he ▸ hx)
            · intro n hn m hm
              rcases List.mem_append.mp hn with hn | hn
              · obtain ⟨hmr, hidx⟩ := hrresp.2 n hn m hm
                refine ⟨List.mem_append.mpr (Or.inl hmr), ?_⟩
                rw [List.indexOf_append_of_mem hmr, List.indexOf_append_of_mem hn]
                exact hidx
              · rw [List.mem_singleton.mp hn] at hm ⊢
                have hmr : m ∈ r := hcs m hm
                refine ⟨List.mem_append.mpr (Or.inl hmr), ?_⟩
                rw [List.indexOf_append_of_mem hmr,
                    List.indexOf_append_of_not_mem hstartr, List.indexOf_cons_self]
                have := List.indexOf_lt_length.mpr hmr
                omega
        · rw [if_neg h3] at h
          exact absurd h (by simp)

theorem runList_error_prop (step : String → List String → Except GraphError (List String))
    (Q : GraphError → Prop) :
    ∀ (cs : List String), (∀ c ∈ cs, ∀ res e, step c res = .error e → Q e) →
    ∀ (res : List String) (e : GraphError),
      runList step cs res = .error e → Q e := by
  intro cs
  induction cs with
  | nil =>
    intro _ res e h
    exact absurd h (by simp [runList])
  | cons c rest ih =>
    intro hstep res e h
    have h0 : (match step c res with
      | Except.error e => Except.error e
      | Except.ok r => runList step rest r) = Except.error e := h
    rcases hc : step c res with e2 | r
    · rw [hc] at h0
      injection h0 with h1
      subst h1
      exact hstep c (by simp) res e2 hc
    · rw [hc] at h0
      exact ih (fun c2 hc2 => hstep c2 (List.mem_cons_of_mem _ hc2)) r e h0

/-- The DFS can only fail with a fuel, stray-node, or cycle error. -/

theorem dfs_errors (g : DepGraph) :
    ∀ (fuel : Nat) (start : String) (path res : List String) (e : GraphError),
      dfs g fuel start path res = .error e →
      e = .fuelExhausted ∨ e = .corruptGraph ∨ ∃ p, e = .cycle p := by
  intro fuel
  induction fuel with
  | zero =>
    intro start path res e h
    simp only [dfs] at h
    injection h with h2
    exact Or.inl h2.symm
  | succ f ih =>
    intro start path res e h
    simp only [dfs] at h
    by_cases h1 : start ∈ res
    · rw [if_pos h1] at h
      exact absurd h (by simp)
    · rw [if_neg h1] at h
      by_cases h2 : start ∈ path
      · rw [if_pos h2] at h
        injection h with h3
        exact Or.inr (Or.inr ⟨_, h3.symm⟩)
      · rw [if_neg h2] at h
        by_cases h3 : start ∈ g.nodes
        · rw [if_pos h3] at h
          rcases hr : runList (fun c r => dfs g f c (path ++ [start]) r)
              (g.outgoing start) res with e2 | r
          · rw [hr] at h
            injection h with h4
            subst h4
            exact runList_error_prop _ _ (g.outgoing start)
              (fun c _ res e hc => ih c (path ++ [start]) res e hc)
              res e2 hr
          · rw [hr] at h
            exact absurd h (by simp)
        · rw [if_neg h3] at h
          injection h with h4
          exact Or.inr (Or.inl h4.symm)

/-- With fuel at least `nodes.length + 1 - path.length` on a graph
whose edges stay inside the node set, the DFS never runs out of fuel
and never reaches a stray node. -/

theorem dfs_no_fuel_corrupt (g : DepGraph)
    (hout : ∀ n m, m ∈ g.outgoing n → m ∈ g.nodes) :
    ∀ (fuel : Nat) (start : String) (path res : List String),
      start ∈ g.nodes → path.Nodup → (∀ x ∈ path, x ∈ g.nodes) →
      g.nodes.length + 1 ≤ fuel + path.length →
      dfs g fuel start path res ≠ .error .fuelExhausted ∧
      dfs g fuel start path res ≠ .error .corruptGraph := by
  intro fuel
  induction fuel with
  | zero =>
    intro start path res hst hnd hsub hfuel
    have := nodup_subset_length_le hnd hsub
    omega
  | succ f ih =>
    intro start path res hst hnd hsub hfuel
    simp only [dfs]
    by_cases h1 : start ∈ res
    · rw [if_pos h1]
      exact ⟨by simp, by simp⟩
    · rw [if_neg h1]
      by_cases h2 : start ∈ path
      · rw [if_pos h2]
        exact ⟨by simp, by simp⟩
      · rw [if_neg h2]
        rw [if_pos hst]
        have hstep : ∀ c res2, c ∈ g.outgoing start →
            dfs g f c (path ++ [start]) res2 ≠ .error .fuelExhausted ∧
            dfs g f c (path ++ [start]) res2 ≠ .error .corruptGraph := by
          intro c res2 hc
          refine ih c (path ++ [start]) res2 (hout start c hc) ?_ ?_ ?_
          · simp only [List.nodup_append, List.nodup_singleton, true_and]
            refine ⟨hnd, ?_⟩
            intro x hx
            simp only [List.mem_singleton]
            intro he
            exact h2 (he ▸ hx)
          · intro x hx
            rcases List.mem_append.mp hx with hx | hx
            · exact hsub x hx
            · rw [List.mem_singleton.mp hx]
              exact hst
          · simp only [List.length_append, List.length_singleton]
            omega
        rcases hr : runList (fun c r => dfs g f c (path ++ [start]) r)
            (g.outgoing start) res with e2 | r
        · have hq : e2 ≠ GraphError.fuelExhausted ∧ e2 ≠ GraphError.corruptGraph :=
            runList_error_prop _
              (fun e => e ≠ GraphError.fuelExhausted ∧ e ≠ GraphError.corruptGraph)
              (g.outgoing start)
              (fun c hc res2 e he =>
                ⟨fun h5 => (hstep c res2 hc).1 (h5 ▸ he),
                 fun h5 => (hstep c res2 hc).2 (h5 ▸ he)⟩)
              res e2 hr
          exact ⟨fun h5 => hq.1 (by injection h5),
                 fun h5 => hq.2 (by injection h5)⟩
        · exact ⟨by simp, by simp⟩

theorem runList_cycle_prop (step : String → List String → Except GraphError (List String))
    (C : Prop) :
    ∀ (cs : List String), (∀ c ∈ cs, ∀ res p, step c res = .error (.cycle p) → C) →
    ∀ (res : List String) (p : List String),
      runList step cs res = .error (.cycle p) → C := by
  intro cs
  induction cs with
  | nil =>
    intro _ res p h
    exact absurd h (by simp [runList])
  | cons c rest ih =>
    intro hstep res p h
    have h0 : (match step c res with
      | Except.error e => Except.error e
      | Except.ok r => runList step rest r) = Except.error (.cycle p) := h
    rcases hc : step c res with e2 | r
    · rw [hc] at h0
      injection h0 with h1
      subst h1
      exact hstep c (by simp) res p hc
    · rw [hc] at h0
      exact ih (fun c2 hc2 => hstep c2 (List.mem_cons_of_mem _ hc2)) r p h0

/-- If the DFS raises a cycle error while its path is a chain of graph
edges whose last element (if any) has an edge to the start node, the
graph genuinely contains a cycle. -/

theorem dfs_cycle_path (g : DepGraph) :
    ∀ (fuel : Nat) (start : String) (path res : List String) (p : List String),
      List.Chain' (GraphEdge g) path →
      (∀ lastEl ∈ path.getLast?, GraphEdge g lastEl start) →
      dfs g fuel start path res = .error (.cycle p) →
      ∃ c, IsCycle (GraphEdge g) c := by
  intro fuel
  induction fuel with
  | zero =>
    intro start path res p _ _ h
    simp only [dfs] at h
    injection h with h2
    exact absurd h2 (by simp)
  | succ f ih =>
    intro start path res p hch hlast h
    simp only [dfs] at h
    by_cases h1 : start ∈ res
    · rw [if_pos h1] at h
      exact absurd h (by simp)
    · rw [if_neg h1] at h
      by_cases h2 : start ∈ path
      · refine ⟨path.drop (List.indexOf start path), ?_, ?_, start, ?_⟩
        · intro hnil
          rw [List.drop_eq_nil_iff_le] at hnil
          exact absurd hnil (by
            have := List.indexOf_lt_length.mpr h2
            omega)
        · exact hch.drop _
        · have hpne : path ≠ [] := List.ne_nil_of_mem h2
          have hlt : List.indexOf start path < path.length :=
            List.indexOf_lt_length.mpr h2
          rcases hgl : path.getLast? with _ | lastEl
          · exact absurd hgl (by
              rcases path with _ | ⟨x, xs⟩
              · exact absurd rfl hpne
              · simp [List.getLast?_eq_getLast])
          · refine ⟨lastEl, head_of_drop_indexOf h2, ?_, hlast lastEl (by rw [hgl]; rfl)⟩
            rw [getLast_of_drop hlt]
            exact hgl
      · rw [if_neg h2] at h
        by_cases h3 : start ∈ g.nodes
        · rw [if_pos h3] at h
          rcases hr : runList (fun c r => dfs g f c (path ++ [start]) r)
              (g.outgoing start) res with e2 | r
          · rw [hr] at h
            injection h with h4
            subst h4
            refine runList_cycle_prop _ _ (g.outgoing start) ?_ res p hr
            intro c hc res2 p2 hstep
            refine ih c (path ++ [start]) res2 p2 ?_ ?_ hstep
            · rw [List.chain'_append]
              refine ⟨hch, List.chain'_singleton start, ?_⟩
              intro x hx y hy
              simp only [List.head?_cons, Option.mem_def, Option.some.injEq] at hy
              subst hy
              exact hlast x hx
            · intro lastEl hle
              rw [List.getLast?_concat] at hle
              simp only [Option.mem_def, Option.some.injEq] at hle
              subst hle
              exact hc
          · rw [hr] at h
            exact absurd h (by simp)
        · rw [if_neg h3] at h
          injection h with h4
          exact absurd h4 (by simp)

/-- Along a chain of graph edges inside a `RespectsEdges` list, indices
never increase. -/

theorem chain'_indexOf_le (g : DepGraph) (r : List String)
    (hresp : RespectsEdges g r) :
    ∀ (c : List String), List.Chain' (GraphEdge g) c → (∀ x ∈ c, x ∈ r) →
      ∀ a b, c.head? = some a → c.getLast? = some b →
        List.indexOf b r ≤ List.indexOf a r := by
  intro c
  induction c with
  | nil => intro _ _ a b ha; exact absurd ha (by simp)
  | cons x rest ih =>
    intro hch hmem a b ha hb
    have hax : a = x := by injection ha with ha2; exact ha2.symm
    subst hax
    rcases rest with _ | ⟨y, rest2⟩
    · have hab : a = b := by injection hb with hb2
      subst hab
      exact le_refl _
    · have hxy : GraphEdge g a y := (List.chain'_cons.mp hch).1
      have hyr : y ∈ r ∧ List.indexOf y r < List.indexOf a r :=
        hresp.2 a (hmem a (by simp)) y hxy
      have hb2 : (y :: rest2).getLast? = some b := by
        rw [← hb]
        rfl
      have := ih (List.chain'_cons.mp hch).2
        (fun z hz => hmem z (List.mem_cons_of_mem _ hz)) y b rfl hb2
      omega

/-- A `RespectsEdges` list containing a graph cycle is impossible. -/

theorem no_cycle_of_respects (g : DepGraph) (r : List String)
    (hresp : RespectsEdges g r) (c : List String)
    (hcyc : IsCycle (GraphEdge g) c) (hmem : ∀ x ∈ c, x ∈ r) : False := by
  obtain ⟨hne, hch, a, b, hh, hl, hR⟩ := hcyc
  have hba : List.indexOf b r ≤ List.indexOf a r :=
    chain'_indexOf_le g r hresp c hch hmem a b hh hl
  have hbr : b ∈ r := hmem b (List.mem_of_mem_getLast? hl)
  have := hresp.2 b hbr a hR
  omega

/-- Every element of a graph cycle is a node (edges stay inside the
node set). -/

theorem cycle_mem_nodes (g : DepGraph)
    (hout : ∀ n m, m ∈ g.outgoing n → n ∈ g.nodes ∧ m ∈ g.nodes)
    (c : List String) (hcyc : IsCycle (GraphEdge g) c) :
    ∀ x ∈ c, x ∈ g.nodes := by
  obtain ⟨hne, hch, a, b, hh, hl, hR⟩ := hcyc
  intro x hx
  rcases chain'_head_or_pred c hch x hx with hhx | ⟨y, hy⟩
  · have hax : a = x := by rw [hh] at hhx; exact Option.some.inj hhx
    subst hax
    exact (hout b a hR).2
  · exact (hout y x hy).2

/-- Success of `overallOrder` on a well-formed graph yields a
duplicate-free order that respects every edge and contains every
node. -/

theorem overallOrder_ok (g : DepGraph) (hwf : GraphWF g) (order : List String)
    (h : overallOrder g = .ok order) :
    RespectsEdges g order ∧ ∀ n ∈ g.nodes, n ∈ order := by
  obtain ⟨hnd, hout, hinout⟩ := hwf
  unfold overallOrder at h
  by_cases hemp : g.nodes.isEmpty
  · rw [if_pos hemp] at h
    injection h with h2
    subst h2
    refine ⟨⟨List.nodup_nil, by simp⟩, ?_⟩
    intro n hn
    rw [List.isEmpty_iff] at hemp
    rw [hemp] at hn
    exact absurd hn (List.not_mem_nil n)
  · rw [if_neg hemp] at h
    rcases h1 : runList (fun n r => dfs g (g.nodes.length + 1) n [] r) g.nodes []
        with e | cycRes
    · rw [h1] at h
      exact absurd h (by simp)
    · rw [h1] at h
      have hrespInit : RespectsEdges g [] := ⟨List.nodup_nil, by simp⟩
      obtain ⟨t1, ht1, hnodesSub, _⟩ := runList_shape _ (fun x => x ∉ ([] : List String))
        (fun c res res' hc => dfs_shape g _ c [] res res' hc) g.nodes [] cycRes h1
      have hcycResp : RespectsEdges g cycRes :=
        runList_preserve _ (RespectsEdges g)
          (fun c res res' hc => dfs_respects g _ c [] res res' hc)
          g.nodes [] cycRes h1 hrespInit
      obtain ⟨t2, ht2, hrootsSub, _⟩ := runList_shape _ (fun x => x ∉ ([] : List String))
        (fun c res res' hc => dfs_shape g _ c [] res res' hc)
        (g.nodes.filter (fun n => (g.incoming n).isEmpty)) [] order h
      have hordResp : RespectsEdges g order :=
        runList_preserve _ (RespectsEdges g)
          (fun c res res' hc => dfs_respects g _ c [] res res' hc)
          (g.nodes.filter (fun n => (g.incoming n).isEmpty)) [] order h hrespInit
      refine ⟨hordResp, ?_⟩
      have hmain : ∀ k, ∀ n ∈ g.nodes,
          cycRes.length - List.indexOf n cycRes ≤ k → n ∈ order := by
        intro k
        induction k using Nat.strong_induction_on with
        | _ k ihk =>
          intro n hn hk
          by_cases hroot : (g.incoming n).isEmpty
          · refine hrootsSub n ?_
            rw [List.mem_filter]
            exact ⟨hn, by simp [hroot]⟩
          · have hine : g.incoming n ≠ [] := by
              intro hx
              rw [hx] at hroot
              exact hroot rfl
            obtain ⟨p, hp⟩ := List.exists_mem_of_ne_nil _ hine
            obtain ⟨hpn, hpnodes⟩ := hinout n p hp
            have hncyc : n ∈ cycRes := hnodesSub n hn
            have hpcyc : p ∈ cycRes := hnodesSub p hpnodes
            obtain ⟨_, hidx⟩ := hcycResp.2 p hpcyc n hpn
            have hnlt : List.indexOf n cycRes < cycRes.length :=
              List.indexOf_lt_length.mpr hncyc
            have hplt : List.indexOf p cycRes < cycRes.length :=
              List.indexOf_lt_length.mpr hpcyc
            have hmeas : cycRes.length - List.indexOf p cycRes < k := by omega
            have hpord : p ∈ order :=
              ihk (cycRes.length - List.indexOf p cycRes) hmeas p hpnodes (le_refl _)
            exact (hordResp.2 p hpord n hpn).1
      intro n hn
      exact hmain cycRes.length n hn (by omega)

/-- Failure of `overallOrder` on a well-formed graph is always a cycle
error, and certifies a genuine graph cycle. -/

theorem overallOrder_error (g : DepGraph) (hwf : GraphWF g) (e : GraphError)
    (h : overallOrder g = .error e) :
    (∃ p, e = .cycle p) ∧ ∃ c, IsCycle (GraphEdge g) c := by
  obtain ⟨hnd, hout, hinout⟩ := hwf
  have hout2 : ∀ n m, m ∈ g.outgoing n → m ∈ g.nodes := fun n m hm => (hout n m hm).2
  unfold overallOrder at h
  by_cases hemp : g.nodes.isEmpty
  · rw [if_pos hemp] at h
    exact absurd h (by simp)
  · rw [if_neg hemp] at h
    have hrunprops : ∀ (starts : List String), (∀ c ∈ starts, c ∈ g.nodes) →
        ∀ res e2, runList (fun n r => dfs g (g.nodes.length + 1) n [] r) starts res =
          .error e2 →
        (∃ p, e2 = .cycle p) ∧ ∃ c, IsCycle (GraphEdge g) c := by
      intro starts hstarts res e2 hrun
      have hclass : e2 = .fuelExhausted ∨ e2 = .corruptGraph ∨ ∃ p, e2 = .cycle p :=
        runList_error_prop _ _ starts
          (fun c _ res2 e3 hc => dfs_errors g _ c [] res2 e3 hc) res e2 hrun
      have hne : e2 ≠ .fuelExhausted ∧ e2 ≠ .corruptGraph := by
        refine runList_error_prop _
          (fun e3 => e3 ≠ GraphError.fuelExhausted ∧ e3 ≠ GraphError.corruptGraph)
          starts ?_ res e2 hrun
        intro c hc res2 e3 hc2
        obtain ⟨hf, hcor⟩ := dfs_no_fuel_corrupt g hout2 (g.nodes.length + 1) c [] res2
          (hstarts c hc) List.nodup_nil (by simp) (by omega)
        exact ⟨fun h5 => hf (h5 ▸ hc2), fun h5 => hcor (h5 ▸ hc2)⟩
      rcases hclass with h5 | h5 | ⟨p, rfl⟩
      · exact absurd h5 hne.1
      · exact absurd h5 hne.2
      · refine ⟨⟨p, rfl⟩, ?_⟩
        refine runList_cycle_prop _ _ starts ?_ res p hrun
        intro c hc res2 p2 hc2
        exact dfs_cycle_path g _ c [] res2 p2 List.chain'_nil (by simp) hc2
    rcases h1 : runList (fun n r => dfs g (g.nodes.length + 1) n [] r) g.nodes []
        with e2 | cycRes
    · rw [h1] at h
      injection h with h2
      exact h2 ▸ hrunprops g.nodes (fun c hc => hc) [] e2 h1
    · rw [h1] at h
      exact hrunprops (g.nodes.filter (fun n => (g.incoming n).isEmpty))
        (fun c hc => (List.mem_filter.mp hc).1) [] e h

/-! ## Well-formedness of built graphs -/

theorem addDependency_ok_mem {g g2 : DepGraph} {a b : String}
    (h : g.addDependency a b = .ok g2) : a ∈ g.nodes ∧ b ∈ g.nodes := by
  unfold DepGraph.addDependency at h
  by_cases ha : g.hasNode a
  · by_cases hb : g.hasNode b
    · exact ⟨(hasNode_iff g a).mp ha, (hasNode_iff g b).mp hb⟩
    · rw [if_neg (by simp [ha]), if_pos (by simp [hb])] at h
      exact absurd h (by simp)
  · rw [if_pos (by simp [ha])] at h
    exact absurd h (by simp)

theorem addDependency_wf {g g2 : DepGraph} {a b : String}
    (h : g.addDependency a b = .ok g2) (hwf : GraphWF g) : GraphWF g2 := by
  obtain ⟨hnd, hout, hinout⟩ := hwf
  obtain ⟨han, hbn⟩ := addDependency_ok_mem h
  obtain ⟨hn2, _, hedge, hmono, hconv, hmonoi, hconvi⟩ := addDependency_ok_spec h
  refine ⟨hn2 ▸ hnd, ?_, ?_⟩
  · intro n m hm
    rcases hconv n m hm with hm2 | ⟨rfl, rfl⟩
    · exact ⟨hn2 ▸ (hout n m hm2).1, hn2 ▸ (hout n m hm2).2⟩
    · exact ⟨hn2 ▸ han, hn2 ▸ hbn⟩
  · intro n p hp
    rcases hconvi n p hp with hp2 | ⟨rfl, rfl⟩
    · obtain ⟨hedge2, hpn⟩ := hinout n p hp2
      exact ⟨hmono p n hedge2, hn2 ▸ hpn⟩
    · exact ⟨hedge, hn2 ▸ han⟩

theorem addInstDeps_wf (skip : Option (List String)) (instNm : String) :
    ∀ (ds : List MWRef) (g g2 : DepGraph),
      addInstDeps skip instNm g ds = .ok g2 → GraphWF g → GraphWF g2 := by
  intro ds
  induction ds with
  | nil =>
    intro g g2 h hwf
    injection h with h2
    exact h2 ▸ hwf
  | cons d rest ih =>
    intro g g2 h hwf
    have h0 : (match g.addDependency instNm (getMiddlewareName d) with
      | .ok g1 => addInstDeps skip instNm g1 rest
      | .error _ => .error (mkDepError skip instNm (getMiddlewareName d))) =
      .ok g2 := h
    rcases hadd : g.addDependency instNm (getMiddlewareName d) with e | g1
    · rw [hadd] at h0
      exact absurd h0 (by simp)
    · rw [hadd] at h0
      exact ih g1 g2 h0 (addDependency_wf hadd hwf)

theorem addAllDependencies_wf (skip : Option (List String)) :
    ∀ (rem : List MiddlewareInstance) (g g2 : DepGraph),
      addAllDependencies skip g rem = .ok g2 → GraphWF g → GraphWF g2 := by
  intro rem
  induction rem with
  | nil =>
    intro g g2 h hwf
    injection h with h2
    exact h2 ▸ hwf
  | cons inst rest ih =>
    intro g g2 h hwf
    have h0 : (match addInstDeps skip (instanceName inst) g inst.dependencies with
      | Except.error e => Except.error e
      | Except.ok g1 => addAllDependencies skip g1 rest) = Except.ok g2 := h
    rcases hstep : addInstDeps skip (instanceName inst) g inst.dependencies with e | g1
    · rw [hstep] at h0
      exact absurd h0 (by simp)
    · rw [hstep] at h0
      exact ih g1 g2 h0 (addInstDeps_wf skip (instanceName inst) inst.dependencies g g1
        hstep hwf)

/-- The base graph (nodes only, no edges) is well-formed. -/

theorem baseGraph_wf (mws : List MiddlewareInstance) :
    GraphWF (addMiddlewareToGraph DepGraph.empty mws) := by
  obtain ⟨hmem, hout, hinc, hnd⟩ := baseGraph_props mws
  refine ⟨hnd, ?_, ?_⟩
  · intro n m hm
    rw [hout n] at hm
    exact absurd hm (List.not_mem_nil m)
  · intro n p hp
    rw [hinc n] at hp
    exact absurd hp (List.not_mem_nil p)

/-! ## Resolution-level results -/

/-- Bundled facts about a successful dependency phase on the base
graph: the resulting graph is well-formed, its nodes are exactly the
configured identities, its edges are exactly the declared dependency
edges. -/

theorem resolvedGraph_props (mws : List MiddlewareInstance)
    (skip : Option (List String)) (g2 : DepGraph)
    (hnomiss : ∀ inst ∈ mws, ∀ d ∈ inst.dependencies,
      getMiddlewareName d ∈ mws.map instanceName)
    (h : addAllDependencies skip (addMiddlewareToGraph DepGraph.empty mws) mws = .ok g2) :
    GraphWF g2 ∧
    (∀ x, x ∈ g2.nodes ↔ x ∈ mws.map instanceName) ∧
    (∀ a b, DeclEdge mws a b ↔ GraphEdge g2 a b) := by
  obtain ⟨hmem, houtE, hincE, hnd⟩ := baseGraph_props mws
  have hwf2 : GraphWF g2 := addAllDependencies_wf skip mws _ g2 h (baseGraph_wf mws)
  obtain ⟨g2b, hok, hn2, _, hedges, hmono, hconv, hconvi⟩ :=
    addAllDependencies_ok skip mws (addMiddlewareToGraph DepGraph.empty mws)
      (fun i hi => (hmem _).mpr (List.mem_map_of_mem instanceName hi))
      (fun i hi d hd => (hmem _).mpr (hnomiss i hi d hd))
  have hsame : g2b = g2 := by
    rw [hok] at h
    injection h
  subst hsame
  refine ⟨hwf2, ?_, ?_⟩
  · intro x
    rw [hn2]
    exact hmem x
  · intro a b
    constructor
    · rintro ⟨inst, hinst, rfl, d, hd, rfl⟩
      exact hedges inst hinst d hd
    · intro hedge
      rcases hconv a b hedge with hbase | ⟨inst, hinst, hni, d, hd, hdn⟩
      · rw [houtE a] at hbase
        exact absurd hbase (List.not_mem_nil b)
      · exact ⟨inst, hinst, hni, d, hd, hdn⟩

/-- Core of C7: a declared dependency cycle among the configured
middleware, with every declared dependency present, drives
`resolveMiddleware` into the dependency-cycle error. -/

theorem resolve_cyclic_fails (mws : List MiddlewareInstance)
    (skip : Option (List String)) (c : List String)
    (hcyc : IsCycle (DeclEdge mws) c)
    (hnomiss : ∀ inst ∈ mws, ∀ d ∈ inst.dependencies,
      getMiddlewareName d ∈ mws.map instanceName) :
    ∃ p, resolveMiddleware mws skip = .error (.cycle p) := by
  obtain ⟨hmem, houtE, hincE, hnd⟩ := baseGraph_props mws
  obtain ⟨g2, hok, hn2, _, hedges, hmono, hconv, hconvi⟩ :=
    addAllDependencies_ok skip mws (addMiddlewareToGraph DepGraph.empty mws)
      (fun i hi => (hmem _).mpr (List.mem_map_of_mem instanceName hi))
      (fun i hi d hd => (hmem _).mpr (hnomiss i hi d hd))
  obtain ⟨hwf2, hnodes2, hiff⟩ := resolvedGraph_props mws skip g2 hnomiss hok
  have hgcyc : IsCycle (GraphEdge g2) c := by
    obtain ⟨hne, hch, a, b, hh, hl, hR⟩ := hcyc
    exact ⟨hne, hch.imp (fun x y hxy => (hiff x y).mp hxy), a, b, hh, hl, (hiff b a).mp hR⟩
  have hres : resolveMiddleware mws skip =
      (match overallOrder g2 with
       | Except.error e => Except.error e
       | Except.ok order => Except.ok (g2, order)) := by
    show (match addAllDependencies skip (addMiddlewareToGraph DepGraph.empty mws) mws with
      | Except.error e => Except.error e
      | Except.ok g3 =>
        match overallOrder g3 with
        | Except.error e => Except.error e
        | Except.ok order => Except.ok (g3, order)) = _
    rw [hok]
  rcases hov : overallOrder g2 with e | order
  · obtain ⟨⟨p, rfl⟩, _⟩ := overallOrder_error g2 hwf2 e hov
    refine ⟨p, ?_⟩
    rw [hres, hov]
  · obtain ⟨hresp, hcomp⟩ := overallOrder_ok g2 hwf2 order hov
    exfalso
    refine no_cycle_of_respects g2 order hresp c hgcyc ?_
    intro x hx
    exact hcomp x (cycle_mem_nodes g2 hwf2.2.1 c hgcyc x hx)

/-- Claim C7 (amended):  For every middleware list whose dependency
declarations form a cycle among the retained middleware *and whose
declared dependencies all resolve to configured identities*,
`resolveMiddleware` fails fatally with the dependency-cycle error and
never returns an execution order.  (Without the second condition the
loop may report the missing/skipped-dependency error first — see the
counterexample.) -/

theorem C7_cycle_fatal (mws : List MiddlewareInstance)
    (skip : Option (List String)) (c : List String)
    (hcyc : IsCycle (DeclEdge mws) c)
    (hnomiss : ∀ inst ∈ mws, ∀ d ∈ inst.dependencies,
      getMiddlewareName d ∈ mws.map instanceName) :
    ∃ p, resolveMiddleware mws skip = .error (.cycle p) :=
  resolve_cyclic_fails mws skip c hcyc hnomiss

/-- Claim C1:  For every acyclic middleware/dependency combination (no
declared-dependency cycle, every declared dependency resolving to a
configured identity), `resolveMiddleware` returns an execution order
that contains every configured middleware and places every declared
dependency strictly before its dependent. -/

theorem C1_order_respects_dependencies (mws : List MiddlewareInstance)
    (skip : Option (List String))
    (hnomiss : ∀ inst ∈ mws, ∀ d ∈ inst.dependencies,
      getMiddlewareName d ∈ mws.map instanceName)
    (hacyc : ∀ c, ¬ IsCycle (DeclEdge mws) c) :
    ∃ g order, resolveMiddleware mws skip = .ok (g, order) ∧
      ∀ inst ∈ mws, ∀ d ∈ inst.dependencies,
        getMiddlewareName d ∈ order ∧ instanceName inst ∈ order ∧
        List.indexOf (getMiddlewareName d) order <
          List.indexOf (instanceName inst) order := by
  obtain ⟨hmem, houtE, hincE, hnd⟩ := baseGraph_props mws
  obtain ⟨g2, hok, hn2, _, hedges, hmono, hconv, hconvi⟩ :=
    addAllDependencies_ok skip mws (addMiddlewareToGraph DepGraph.empty mws)
      (fun i hi => (hmem _).mpr (List.mem_map_of_mem instanceName hi))
      (fun i hi d hd => (hmem _).mpr (hnomiss i hi d hd))
  obtain ⟨hwf2, hnodes2, hiff⟩ := resolvedGraph_props mws skip g2 hnomiss hok
  have hres : resolveMiddleware mws skip =
      (match overallOrder g2 with
       | Except.error e => Except.error e
       | Except.ok order => Except.ok (g2, order)) := by
    show (match addAllDependencies skip (addMiddlewareToGraph DepGraph.empty mws) mws with
      | Except.error e => Except.error e
      | Except.ok g3 =>
        match overallOrder g3 with
        | Except.error e => Except.error e
        | Except.ok order => Except.ok (g3, order)) = _
    rw [hok]
  rcases hov : overallOrder g2 with e | order
  · exfalso
    obtain ⟨_, cyc, hgcyc⟩ := overallOrder_error g2 hwf2 e hov
    refine hacyc cyc ?_
    obtain ⟨hne, hch, a, b, hh, hl, hR⟩ := hgcyc
    exact ⟨hne, hch.imp (fun x y hxy => (hiff x y).mpr hxy), a, b, hh, hl, (hiff b a).mpr hR⟩
  · obtain ⟨hresp, hcomp⟩ := overallOrder_ok g2 hwf2 order hov
    refine ⟨g2, order, by rw [hres, hov], ?_⟩
    intro inst hinst d hd
    have hedge : getMiddlewareName d ∈ g2.outgoing (instanceName inst) :=
      hedges inst hinst d hd
    have hio : instanceName inst ∈ order :=
      hcomp _ ((hnodes2 _).mpr (List.mem_map_of_mem instanceName hinst))
    obtain ⟨hdo, hidx⟩ := hresp.2 (instanceName inst) hio (getMiddlewareName d) hedge
    exact ⟨hdo, hio, hidx⟩

/-- Claim C6:  For every retained middleware that declares a dependency
whose resolved identity is absent from the graph, `resolveMiddleware`
fails fatally with a synchronous configuration error and never returns
an order: the error it raises (for the first such pair the loops
encounter) names a retained dependent and a genuinely absent declared
dependency, and is the "depends on a skipped middleware" error exactly
when the dependency's identity is in the resolved skip list, the
"missing middleware dependency" error otherwise. -/

theorem C6_missing_dependency_fatal (mws : List MiddlewareInstance)
    (skip : Option (List String)) (inst : MiddlewareInstance) (hinst : inst ∈ mws)
    (d : MWRef) (hd : d ∈ inst.dependencies)
    (hmiss : getMiddlewareName d ∉ mws.map instanceName) :
    ∃ iNm dn, dn ∉ mws.map instanceName ∧
      (∃ inst2 ∈ mws, instanceName inst2 = iNm ∧
        ∃ d2 ∈ inst2.dependencies, getMiddlewareName d2 = dn) ∧
      resolveMiddleware mws skip =
        .error (if (skip.getD []).contains dn then .dependsOnSkipped iNm dn
                else .missingDependency iNm dn) := by
  obtain ⟨hmem, hout, hinc, hnd⟩ := baseGraph_props mws
  obtain ⟨iNm, dn, herr, hdn, inst2, hinst2, hni, d2, hd2, hdneq⟩ :=
    addAllDependencies_err skip mws (addMiddlewareToGraph DepGraph.empty mws)
      (fun i hi => (hmem _).mpr (List.mem_map_of_mem instanceName hi))
      ⟨inst, hinst, d, hd, fun hx => hmiss ((hmem _).mp hx)⟩
  refine ⟨iNm, dn, fun hx => hdn ((hmem _).mpr hx), ⟨inst2, hinst2, hni, d2, hd2, hdneq⟩, ?_⟩
  show (match addAllDependencies skip (addMiddlewareToGraph DepGraph.empty mws) mws with
    | Except.error e => Except.error e
    | Except.ok g2 =>
      match overallOrder g2 with
      | Except.error e => Except.error e
      | Except.ok order => Except.ok (g2, order)) = _
  rw [herr]
  rfl

theorem markersOf_append (a b : List Event) :
    markersOf (a ++ b) = markersOf a ++ markersOf b :=
  List.filterMap_append a b _

theorem markersOf_markers (l : List String) :
    markersOf (l.map .marker) = l := by
  induction l with
  | nil => rfl
  | cons t rest ih => simp [markersOf] at ih ⊢; exact ih

theorem stDbg_fields (ps : EngParams) (s : EngSt) (m : String) :
    markersOf (stDbg ps s m).trace = markersOf s.trace ∧
    (stDbg ps s m).errorInstalled = s.errorInstalled ∧
    (stDbg ps s m).handlerHasBeenExecuted = s.handlerHasBeenExecuted ∧
    (stDbg ps s m).handlerRuns = s.handlerRuns := by
  unfold stDbg
  by_cases h : ps.debug <;> simp [h, markersOf_append, markersOf]

/-- Running a block of emitted markers appends them to the trace and
continues; no other field changes. -/

theorem runActions_emits (ps : EngParams) (k : EngSt → Except ErrVal Unit × EngSt)
    (l : List String) (rest : List Action) (s : EngSt) :
    runActions ps k (l.map .emit ++ rest) s =
      runActions ps k rest { s with trace := s.trace ++ l.map .marker } := by
  induction l generalizing s with
  | nil => simp
  | cons t ts ih =>
    simp only [List.map_cons, List.cons_append, runActions, List.append_eq]
    rw [ih]
    simp [List.append_assoc]

theorem runHActions_emits (ps : EngParams) (l : List String) (rest : List HAction)
    (s : EngSt) :
    runHActions ps (l.map .emit ++ rest) s =
      runHActions ps rest { s with trace := s.trace ++ l.map .marker } := by
  induction l generalizing s with
  | nil => simp
  | cons t ts ih =>
    simp only [List.map_cons, List.cons_append, runHActions, List.append_eq]
    rw [ih]
    simp [List.append_assoc]

theorem runHActions_emits_nil (ps : EngParams) (l : List String) (s : EngSt) :
    runHActions ps (l.map .emit) s =
      (.ok (), { s with trace := s.trace ++ l.map .marker }) := by
  have h := runHActions_emits ps l [] s
  rw [List.append_nil] at h
  rw [h]
  simp [runHActions]

theorem runActions_emits_nil (ps : EngParams) (k : EngSt → Except ErrVal Unit × EngSt)
    (l : List String) (s : EngSt) :
    runActions ps k (l.map .emit) s =
      (.ok (), { s with trace := s.trace ++ l.map .marker }) := by
  have h := runActions_emits ps k l [] s
  rw [List.append_nil] at h
  rw [h]
  simp [runActions]

theorem handlerBranch_emits (ps : EngParams) (hs : List String) (s : EngSt) :
    handlerBranch ps (hs.map .emit) s =
      (.ok (), { stDbg ps s "Running route handler" with
                 trace := (stDbg ps s "Running route handler").trace ++ hs.map .marker
                 handlerHasBeenExecuted := true
                 handlerRuns := s.handlerRuns + 1 }) := by
  unfold handlerBranch
  rw [runHActions_emits_nil]
  unfold stDbg
  by_cases h : ps.debug <;> simp [h]

theorem runActions_callNext_ok (ps : EngParams) (k : EngSt → Except ErrVal Unit × EngSt)
    (rest : List Action) (s s2 : EngSt) (h : k s = (.ok (), s2)) :
    runActions ps k (.callNext :: rest) s = runActions ps k rest s2 := by
  simp [runActions, h]

/-- Claim C2:  The onion ordering guarantee.  For every resolved
execution order (any list of non-empty middleware identities) and every
assignment of middleware that each invoke and await their continuation
exactly once (arbitrary observable pre-markers, one `callNext`,
arbitrary post-markers), the chain started by `executeRoute`'s `next()`
completes normally, emits every middleware's pre-markers in order, the
handler's markers after the last middleware, and the post-markers in
exactly the reverse order; the handler runs exactly once.  With an
empty order the handler runs directly, and the one-middleware case is
the instance `order = [nm]`. -/

theorem C2_onion_execution_order (ps : EngParams) (pres posts : String → List String)
    (hs : List String) :
    ∀ (order : List String) (s : EngSt), (∀ nm ∈ order, nm ≠ "") →
      (nextRun ps (onionProg pres posts) (hs.map .emit) order s).1 = .ok () ∧
      markersOf (nextRun ps (onionProg pres posts) (hs.map .emit) order s).2.trace =
        markersOf s.trace ++ order.flatMap pres ++ hs ++ order.reverse.flatMap posts ∧
      (nextRun ps (onionProg pres posts) (hs.map .emit) order s).2.handlerRuns =
        s.handlerRuns + 1 ∧
      (nextRun ps (onionProg pres posts) (hs.map .emit) order s).2.handlerHasBeenExecuted =
        true ∧
      (nextRun ps (onionProg pres posts) (hs.map .emit) order s).2.errorInstalled =
        s.errorInstalled := by
  intro order
  induction order with
  | nil =>
    intro s _
    simp only [nextRun, handlerBranch_emits]
    obtain ⟨ht, he, _, hr⟩ := stDbg_fields ps s "Running route handler"
    simp [markersOf_append, markersOf_markers, ht, he, hr]
  | cons nm rest ih =>
    intro s hnm
    have hne : nm ≠ "" := hnm nm (by simp)
    have hrest : ∀ x ∈ rest, x ≠ "" := fun x hx => hnm x (by simp [hx])
    simp only [nextRun, if_neg hne, onionProg]
    rw [runActions_emits]
    obtain ⟨ht1, he1, hb1, hr1⟩ := stDbg_fields ps s ("Running: " ++ nm)
    set s1 : EngSt :=
      { stDbg ps s ("Running: " ++ nm) with
        trace := (stDbg ps s ("Running: " ++ nm)).trace ++ (pres nm).map .marker }
      with hs1
    obtain ⟨hok, htr, hhr, hhb, hei⟩ := ih s1 hrest
    rcases hk : nextRun ps (onionProg pres posts) (hs.map .emit) rest s1 with ⟨r1, s2⟩
    rw [hk] at hok htr hhr hhb hei
    simp only at hok htr hhr hhb hei
    subst hok
    rw [runActions_callNext_ok ps _ _ s1 s2 hk]
    rw [runActions_emits_nil]
    have hs1tr : markersOf s1.trace = markersOf s.trace ++ pres nm := by
      rw [hs1]
      simp only [markersOf_append, markersOf_markers]
      rw [ht1]
    have hs1hr : s1.handlerRuns = s.handlerRuns := hr1
    have hs1ei : s1.errorInstalled = s.errorInstalled := he1
    rw [hs1tr] at htr
    rw [hs1hr] at hhr
    rw [hs1ei] at hei
    refine ⟨rfl, ?_, by simp [hhr], by simp [hhb], by simp [hei]⟩
    simp only [markersOf_append, markersOf_markers, htr]
    simp [List.flatMap_append, List.append_assoc]

/-- Outside production mode, `ErrorHandler.handle` never lets the
`HandledError` sentinel escape: it catches the sentinel from its
awaited continuation and rethrows only non-sentinel errors. -/

theorem runEH_not_handled (ps : EngParams) (hprod : ps.prod = false)
    (k : EngSt → Except ErrVal Unit × EngSt) (s : EngSt) :
    (runEH ps k s).1 ≠ .error .handled := by
  unfold runEH
  rcases hkk : k (ehInstall ps s) with ⟨r, s3⟩
  cases r with
  | ok v => simp
  | error e =>
    cases e with
    | handled => simp
    | userErr t => simp [hprod]
    | typeError => simp [hprod]

/-- A middleware body that contains no `callError` cannot produce the
sentinel itself; if its continuation never produces the sentinel,
neither does the whole body. -/

theorem runActions_not_handled (ps : EngParams)
    (k : EngSt → Except ErrVal Unit × EngSt)
    (hk : ∀ t, (k t).1 ≠ .error .handled) :
    ∀ acts, Action.callError ∉ acts → ∀ s,
      (runActions ps k acts s).1 ≠ .error .handled := by
  intro acts
  induction acts with
  | nil => intro _ s; simp [runActions]
  | cons a rest ih =>
    intro hmem s
    have hmem2 : Action.callError ∉ rest := fun hx => hmem (List.mem_cons_of_mem _ hx)
    cases a with
    | emit t => exact ih hmem2 _
    | callNext =>
      have hks := hk s
      simp only [runActions]
      rcases hkk : k s with ⟨r, s2⟩
      rw [hkk] at hks
      cases r with
      | ok v => exact ih hmem2 s2
      | error e => simpa using hks
    | callError => exact absurd (List.mem_cons_self _ _) hmem
    | throwErr t => simp [runActions]

/-- Claim C3 (amended):  Outside production mode, whenever every
middleware positioned before the `ErrorHandler` in the execution order
never invokes the error responder, the sentinel cannot reach the caller
of the invocation entry point: every sentinel raised downstream of the
`ErrorHandler` (by a later middleware in either phase, or by the
handler) is raised inside the `ErrorHandler`'s awaited continuation and
is caught there. -/

theorem C3_sentinel_never_surfaces (ps : EngParams) (hprod : ps.prod = false)
    (data : String → MWBehavior) (hprog : List HAction)
    (ehName : String) (hehN : ehName ≠ "") (hehB : data ehName = .errorHandler)
    (post : List String) :
    ∀ (pre : List String), (∀ nm ∈ pre, nm ≠ "" ∧ safeOutsideEH (data nm)) →
    ∀ s, (nextRun ps data hprog (pre ++ ehName :: post) s).1 ≠ .error .handled := by
  intro pre
  induction pre with
  | nil =>
    intro _ s
    simp only [List.nil_append, nextRun, if_neg hehN, hehB]
    exact runEH_not_handled ps hprod _ _
  | cons nm rest ih =>
    intro hpre s
    obtain ⟨hne, hsafe⟩ := hpre nm (by simp)
    have hpre2 : ∀ x ∈ rest, x ≠ "" ∧ safeOutsideEH (data x) :=
      fun x hx => hpre x (by simp [hx])
    simp only [List.cons_append, nextRun, if_neg hne]
    rcases hbeh : data nm with p | _
    · have hsafe2 : Action.callError ∉ p := by rw [hbeh] at hsafe; exact hsafe
      exact runActions_not_handled ps _ (fun t => ih hpre2 t) p hsafe2 _
    · exact runEH_not_handled ps hprod _ _

theorem doCallError_hr (ps : EngParams) (s : EngSt) :
    (doCallError ps s).2.handlerRuns = s.handlerRuns ∧
    ∃ e, (doCallError ps s).1 = .error e := by
  unfold doCallError stWarn
  by_cases h : s.errorInstalled <;> by_cases h2 : ps.debug <;>
    simp [h, h2]

theorem runHActions_hr (ps : EngParams) :
    ∀ (hprog : List HAction) (s : EngSt),
      (runHActions ps hprog s).2.handlerRuns = s.handlerRuns := by
  intro hprog
  induction hprog with
  | nil => intro s; simp [runHActions]
  | cons a rest ih =>
    intro s
    cases a with
    | emit t => exact ih _
    | throwErr t => simp [runHActions]
    | callError =>
      simp only [runHActions]
      obtain ⟨hdc, e, he⟩ := doCallError_hr ps s
      rcases hdcc : doCallError ps s with ⟨r, s2⟩
      rw [hdcc] at hdc he
      simp only at hdc he
      subst he
      simpa using hdc

theorem stDbg_hr (ps : EngParams) (s : EngSt) (m : String) :
    (stDbg ps s m).handlerRuns = s.handlerRuns :=
  (stDbg_fields ps s m).2.2.2

theorem handlerBranch_hr (ps : EngParams) (hprog : List HAction) (s : EngSt) :
    (handlerBranch ps hprog s).2.handlerRuns = s.handlerRuns + 1 := by
  unfold handlerBranch
  rw [runHActions_hr]
  simp [stDbg_hr]

theorem stWarn_hr (ps : EngParams) (s : EngSt) (m : String) :
    (stWarn ps s m).handlerRuns = s.handlerRuns := by
  unfold stWarn
  by_cases h : ps.debug <;> simp [h]

theorem ehInstall_hr (ps : EngParams) (s : EngSt) :
    (ehInstall ps s).handlerRuns = s.handlerRuns := by
  unfold ehInstall stWarn
  by_cases h : s.errorInstalled <;> by_cases h2 : ps.debug <;> simp [h, h2]

/-- Lemma: `ErrorHandler.handle` transfers the continuation's handler-run
bounds unchanged: the install step and every catch branch leave the
counter alone. -/

theorem runEH_hr_bound (ps : EngParams) (k : EngSt → Except ErrVal Unit × EngSt)
    (C : Prop)
    (hk : ∀ t : EngSt, t.handlerRuns ≤ (k t).2.handlerRuns ∧
          (k t).2.handlerRuns ≤ t.handlerRuns + 1 ∧
          (t.handlerRuns < (k t).2.handlerRuns → C)) (s : EngSt) :
    s.handlerRuns ≤ (runEH ps k s).2.handlerRuns ∧
    (runEH ps k s).2.handlerRuns ≤ s.handlerRuns + 1 ∧
    (s.handlerRuns < (runEH ps k s).2.handlerRuns → C) := by
  unfold runEH
  have hin := ehInstall_hr ps s
  obtain ⟨h1, h2, h3⟩ := hk (ehInstall ps s)
  rcases hkk : k (ehInstall ps s) with ⟨r, s3⟩
  rw [hkk] at h1 h2 h3
  simp only at h1 h2 h3
  rw [hin] at h1 h2 h3
  cases r with
  | ok v => exact ⟨h1, h2, h3⟩
  | error e =>
    cases e with
    | handled => exact ⟨h1, h2, h3⟩
    | userErr t =>
      by_cases hp : ps.prod
      · simp only [hp, if_true]
        exact ⟨h1, h2, h3⟩
      · simp only [hp, Bool.false_eq_true, if_false, stWarn_hr]
        exact ⟨h1, h2, h3⟩
    | typeError =>
      by_cases hp : ps.prod
      · simp only [hp, if_true]
        exact ⟨h1, h2, h3⟩
      · simp only [hp, Bool.false_eq_true, if_false, stWarn_hr]
        exact ⟨h1, h2, h3⟩

/-- A body with no `callNext` never touches the handler counter. -/

theorem runActions_hr_zero (ps : EngParams) (k : EngSt → Except ErrVal Unit × EngSt) :
    ∀ acts, acts.count Action.callNext = 0 → ∀ s,
      (runActions ps k acts s).2.handlerRuns = s.handlerRuns := by
  intro acts
  induction acts with
  | nil => intro _ s; simp [runActions]
  | cons a rest ih =>
    intro hz s
    cases a with
    | emit t =>
      rw [List.count_cons_of_ne (by simp)] at hz
      exact ih hz _
    | throwErr t => simp [runActions]
    | callError =>
      rw [List.count_cons_of_ne (by simp)] at hz
      simp only [runActions]
      obtain ⟨hdc, e, he⟩ := doCallError_hr ps s
      rcases hdcc : doCallError ps s with ⟨r, s2⟩
      rw [hdcc] at hdc he
      simp only at hdc he
      subst he
      simpa using hdc
    | callNext =>
      rw [List.count_cons_self] at hz
      omega

/-- A body that invokes its continuation at most once bumps the handler
counter at most once; any bump certifies both the continuation's
property `C` and the presence of a `callNext` in the body. -/

theorem runActions_hr_bound (ps : EngParams) (k : EngSt → Except ErrVal Unit × EngSt)
    (C : Prop)
    (hk : ∀ t : EngSt, t.handlerRuns ≤ (k t).2.handlerRuns ∧
          (k t).2.handlerRuns ≤ t.handlerRuns + 1 ∧
          (t.handlerRuns < (k t).2.handlerRuns → C)) :
    ∀ acts, acts.count Action.callNext ≤ 1 → ∀ s,
      s.handlerRuns ≤ (runActions ps k acts s).2.handlerRuns ∧
      (runActions ps k acts s).2.handlerRuns ≤ s.handlerRuns + 1 ∧
      (s.handlerRuns < (runActions ps k acts s).2.handlerRuns →
        C ∧ Action.callNext ∈ acts) := by
  intro acts
  induction acts with
  | nil => intro _ s; simp [runActions]
  | cons a rest ih =>
    intro hc s
    cases a with
    | emit t =>
      rw [List.count_cons_of_ne (by simp)] at hc
      obtain ⟨h1, h2, h3⟩ := ih hc { s with trace := s.trace ++ [.marker t] }
      exact ⟨h1, h2, fun hlt => ⟨(h3 hlt).1, List.mem_cons_of_mem _ (h3 hlt).2⟩⟩
    | throwErr t => simp [runActions]
    | callError =>
      rw [List.count_cons_of_ne (by simp)] at hc
      simp only [runActions]
      obtain ⟨hdc, e, he⟩ := doCallError_hr ps s
      rcases hdcc : doCallError ps s with ⟨r, s2⟩
      rw [hdcc] at hdc he
      simp only at hdc he
      subst he
      simp only
      omega
    | callNext =>
      rw [List.count_cons_self] at hc
      have hz : rest.count Action.callNext = 0 := by omega
      simp only [runActions]
      obtain ⟨h1, h2, h3⟩ := hk s
      rcases hkk : k s with ⟨r, s2⟩
      rw [hkk] at h1 h2 h3
      simp only at h1 h2 h3
      cases r with
      | ok v =>
        rw [runActions_hr_zero ps k rest hz s2]
        exact ⟨h1, h2, fun hlt => ⟨h3 hlt, List.mem_cons_self _ _⟩⟩
      | error e =>
        exact ⟨h1, h2, fun hlt => ⟨h3 hlt, List.mem_cons_self _ _⟩⟩

/-- Claim C9 (amended):  Provided every middleware in the resolved order
invokes its continuation *at most once* (the restriction the
counterexample forces — nothing in the engine prevents a middleware
from resuming the rest of the chain, handler included, several times),
the route handler executes at most once per invocation, and it
executes only when every middleware in the chain contains a
continuation invocation. -/

theorem C9_handler_at_most_once (ps : EngParams) (data : String → MWBehavior)
    (hprog : List HAction) :
    ∀ (order : List String), (∀ nm ∈ order, nm ≠ "" ∧ callsNextAtMostOnce (data nm)) →
    ∀ s : EngSt,
      s.handlerRuns ≤ (nextRun ps data hprog order s).2.handlerRuns ∧
      (nextRun ps data hprog order s).2.handlerRuns ≤ s.handlerRuns + 1 ∧
      (s.handlerRuns < (nextRun ps data hprog order s).2.handlerRuns →
        ∀ nm ∈ order, hasNextCall (data nm)) := by
  intro order
  induction order with
  | nil =>
    intro _ s
    simp only [nextRun]
    rw [show (handlerBranch ps hprog s).2.handlerRuns = s.handlerRuns + 1 from
      handlerBranch_hr ps hprog s]
    exact ⟨by omega, by omega, fun _ nm hnm => absurd hnm (List.not_mem_nil nm)⟩
  | cons nm rest ih =>
    intro hpre s
    obtain ⟨hne, honce⟩ := hpre nm (by simp)
    have hpre2 : ∀ x ∈ rest, x ≠ "" ∧ callsNextAtMostOnce (data x) :=
      fun x hx => hpre x (by simp [hx])
    simp only [nextRun, if_neg hne]
    have hdbg := stDbg_hr ps s ("Running: " ++ nm)
    have hk : ∀ t : EngSt,
        t.handlerRuns ≤ (nextRun ps data hprog rest t).2.handlerRuns ∧
        (nextRun ps data hprog rest t).2.handlerRuns ≤ t.handlerRuns + 1 ∧
        (t.handlerRuns < (nextRun ps data hprog rest t).2.handlerRuns →
          ∀ x ∈ rest, hasNextCall (data x)) :=
      fun t => ih hpre2 t
    rcases hbeh : data nm with p | _
    · have honce2 : p.count Action.callNext ≤ 1 := by
        rw [hbeh] at honce; exact honce
      obtain ⟨h1, h2, h3⟩ := runActions_hr_bound ps _ _ hk p honce2
        (stDbg ps s ("Running: " ++ nm))
      rw [hdbg] at h1 h2 h3
      refine ⟨h1, h2, fun hlt => ?_⟩
      obtain ⟨hC, hmem⟩ := h3 hlt
      intro x hx
      rcases List.mem_cons.mp hx with hx | hx
      · subst hx
        show hasNextCall (data x)
        rw [hbeh]
        exact hmem
      · exact hC x hx
    · obtain ⟨h1, h2, h3⟩ := runEH_hr_bound ps _ _ hk (stDbg ps s ("Running: " ++ nm))
      rw [hdbg] at h1 h2 h3
      refine ⟨h1, h2, fun hlt => ?_⟩
      intro x hx
      rcases List.mem_cons.mp hx with hx | hx
      · subst hx
        show hasNextCall (data x)
        rw [hbeh]
        trivial
      · exact h3 hlt x hx

end Strate

/-- Claim C3 counterexample:  The claim says the sentinel is caught by
the engine for *every* configuration.  The `HandledError` sentinel is
caught only by the `ErrorHandler` middleware's own `try`; a middleware
ordered *before* the `ErrorHandler` that invokes the (by then
installed) responder in its post phase throws the sentinel outside any
`try`, and the invocation entry point rejects with it. -/

theorem C3_sentinel_escapes_counterexample :
    (Strate.executeRoute ⟨false, false⟩
        [⟨none, "A", none, [], .prog [.callNext, .callError]⟩,
         ⟨some "Strate", "ErrorHandler", none, [], .errorHandler⟩]
        none [.emit "H"] Strate.engInit).1 =
      .error (.run .handled) := rfl

/-- Witness for the amended C3: middleware `A` (calls `next`, never the
responder) runs before the `ErrorHandler`; middleware `B` after it
raises the sentinel through the responder; the chain does not reject
with the sentinel. -/

theorem C3_sentinel_never_surfaces_witness :
    (Strate.nextRun ⟨false, false⟩ Strate.c3Data [.emit "H"]
        (["A"] ++ "EH" :: ["B"]) Strate.engInit).1 ≠
      Except.error Strate.ErrVal.handled := by
  refine Strate.C3_sentinel_never_surfaces ⟨false, false⟩ rfl Strate.c3Data [.emit "H"]
    "EH" (by decide) rfl ["B"] ["A"] ?_ Strate.engInit
  intro nm hnm
  simp only [List.mem_singleton] at hnm
  subst hnm
  refine ⟨by decide, ?_⟩
  show Strate.safeOutsideEH (Strate.MWBehavior.prog [.callNext, .emit "x"])
  simp [Strate.safeOutsideEH]

/-- Claim C4:  The claim (and the comment in the source, "Suppress
unhandled errors on production") says a non-sentinel error raised
inside the `ErrorHandler` boundary is *suppressed* in production after
the generic fallback response is sent: the caller receives a terminal
response and no exception.  In the code the catch branch calls
`error()`, which sends the fallback response and then *throws a fresh
`HandledError`* from inside the catch block — so the fallback response
is sent but the sentinel still propagates to the caller of the
invocation entry point.  In non-production mode the error is rethrown
after a `strate.warn`, as the claim says. -/

theorem C4_production_fallback_rethrows :
    (Strate.executeRoute ⟨false, true⟩
        [⟨some "Strate", "ErrorHandler", none, [], .errorHandler⟩,
         ⟨none, "B", none, [], .prog [.throwErr "boom"]⟩]
        none [.emit "H"] Strate.engInit).1 =
      .error (.run .handled) ∧
    (Strate.executeRoute ⟨false, true⟩
        [⟨some "Strate", "ErrorHandler", none, [], .errorHandler⟩,
         ⟨none, "B", none, [], .prog [.throwErr "boom"]⟩]
        none [.emit "H"] Strate.engInit).2.trace = [Strate.Event.errorResponse] ∧
    (Strate.executeRoute ⟨false, false⟩
        [⟨some "Strate", "ErrorHandler", none, [], .errorHandler⟩,
         ⟨none, "B", none, [], .prog [.throwErr "boom"]⟩]
        none [.emit "H"] Strate.engInit).1 =
      .error (.run (.userErr "boom")) :=
  ⟨rfl, rfl, rfl⟩

/-- Claim C7 counterexample:  The claim says any configuration whose
declarations contain a cycle fails *with a dependency-cycle error*.
In this configuration `A` and `B` form a declared cycle, but the
dependency loop throws the missing-middleware-dependency error for `C`
before `overallOrder` ever runs its cycle detection, so the raised
error is not the cycle error (though no order is returned). -/

theorem C7_missing_before_cycle_counterexample :
    Strate.IsCycle (Strate.DeclEdge [c7A, c7B, c7C]) ["undefinedA", "undefinedB"] ∧
    Strate.resolveMiddleware [c7A, c7B, c7C] none =
      .error (.missingDependency "undefinedC" "X") ∧
    isCycleErrorResult (Strate.resolveMiddleware [c7A, c7B, c7C] none) = false := by
  refine ⟨⟨by simp, ?_, "undefinedA", "undefinedB", rfl, rfl, ?_⟩, rfl, rfl⟩
  · refine List.chain'_cons.mpr ⟨?_, List.chain'_singleton _⟩
    exact ⟨c7A, by simp, rfl, .str "undefinedB", by simp [c7A], rfl⟩
  · exact ⟨c7B, by simp, rfl, .str "undefinedA", by simp [c7B], rfl⟩

/-- Witness for the amended C7 at the pure two-cycle `A ↔ B`:
`resolveMiddleware` raises the dependency-cycle error. -/

theorem C7_cycle_fatal_witness :
    ∃ p, Strate.resolveMiddleware [c7A, c7B] none = .error (.cycle p) := by
  refine Strate.C7_cycle_fatal [c7A, c7B] none ["undefinedA", "undefinedB"]
    ⟨by simp, ?_, "undefinedA", "undefinedB", rfl, rfl, ?_⟩ ?_
  · refine List.chain'_cons.mpr ⟨?_, List.chain'_singleton _⟩
    exact ⟨c7A, by simp, rfl, .str "undefinedB", by simp [c7A], rfl⟩
  · exact ⟨c7B, by simp, rfl, .str "undefinedA", by simp [c7B], rfl⟩
  · intro inst hinst d hd
    rcases List.mem_cons.mp hinst with rfl | hinst
    · simp only [c7A] at hd
      simp only [List.mem_singleton] at hd
      subst hd
      decide
    · rcases List.mem_cons.mp hinst with rfl | hinst
      · simp only [c7B] at hd
        simp only [List.mem_singleton] at hd
        subst hd
        decide
      · exact absurd hinst (List.not_mem_nil inst)

/-- Witness for C1 at the two-middleware configuration `B depends on
A`: an order is returned and it places `A` strictly before `B`. -/

theorem C1_order_respects_dependencies_witness :
    ∃ g order, Strate.resolveMiddleware [c1A, c1B] none = .ok (g, order) ∧
      ∀ inst ∈ [c1A, c1B], ∀ d ∈ inst.dependencies,
        Strate.getMiddlewareName d ∈ order ∧ Strate.instanceName inst ∈ order ∧
        List.indexOf (Strate.getMiddlewareName d) order <
          List.indexOf (Strate.instanceName inst) order := by
  have hedge : ∀ a b, Strate.DeclEdge [c1A, c1B] a b →
      a = "undefinedB" ∧ b = "undefinedA" := by
    rintro a b ⟨inst, hinst, rfl, d, hd, rfl⟩
    rcases List.mem_cons.mp hinst with rfl | hinst
    · simp only [c1A] at hd
      exact absurd hd (List.not_mem_nil d)
    · rcases List.mem_cons.mp hinst with rfl | hinst
      · simp only [c1B] at hd
        simp only [List.mem_singleton] at hd
        subst hd
        exact ⟨rfl, rfl⟩
      · exact absurd hinst (List.not_mem_nil inst)
  refine Strate.C1_order_respects_dependencies [c1A, c1B] none ?_ ?_
  · intro inst hinst d hd
    rcases List.mem_cons.mp hinst with rfl | hinst
    · simp only [c1A] at hd
      exact absurd hd (List.not_mem_nil d)
    · rcases List.mem_cons.mp hinst with rfl | hinst
      · simp only [c1B] at hd
        simp only [List.mem_singleton] at hd
        subst hd
        decide
      · exact absurd hinst (List.not_mem_nil inst)
  · intro c hc
    obtain ⟨hne, hch, a, b, hh, hl, hR⟩ := hc
    obtain ⟨hbB, haA⟩ := hedge b a hR
    subst hbB
    subst haA
    rcases c with _ | ⟨x, rest⟩
    · exact hne rfl
    · have hxa : x = "undefinedA" := by injection hh
      subst hxa
      rcases rest with _ | ⟨y, rest2⟩
      · have : ("undefinedA" : String) = "undefinedB" := by injection hl
        exact absurd this (by decide)
      · have hxy : Strate.DeclEdge [c1A, c1B] "undefinedA" y :=
          (List.chain'_cons.mp hch).1
        have := (hedge _ _ hxy).1
        exact absurd this (by decide)

/-- Witness for C6 at a concrete configuration: the single middleware
`B` (identity `"undefinedB"`) depends on the absent identity `"X"`,
and `resolveMiddleware` raises the missing-middleware-dependency
error naming both. -/

theorem C6_missing_dependency_fatal_witness :
    ∃ iNm dn, dn ∉ [mwB6].map Strate.instanceName ∧
      (∃ inst2 ∈ [mwB6], Strate.instanceName inst2 = iNm ∧
        ∃ d2 ∈ inst2.dependencies, Strate.getMiddlewareName d2 = dn) ∧
      Strate.resolveMiddleware [mwB6] none =
        .error (if ((none : Option (List String)).getD []).contains dn
                then .dependsOnSkipped iNm dn
                else .missingDependency iNm dn) :=
  Strate.C6_missing_dependency_fatal [mwB6] none mwB6 (by simp)
    (.str "X") (by simp [mwB6]) (by decide)

/-- Claim C9 counterexample:  The claim says the handler runs at most
once even for middleware that invoke their continuation several times.
The continuation handed to a middleware is `() => next(index + 1)`;
calling it twice reruns the whole rest of the chain, so a single
middleware that awaits `next()` twice makes the route handler execute
twice. -/

theorem C9_double_next_counterexample :
    (Strate.nextRun ⟨false, false⟩ (fun _ => .prog [.callNext, .callNext])
        [.emit "H"] ["A"] Strate.engInit).2.handlerRuns = 2 := rfl

/-- Witness for the amended C9 at a concrete two-middleware chain with
one `next()` call each: the handler executes exactly once and both
middleware contain a continuation invocation. -/

theorem C9_handler_at_most_once_witness :
    Strate.engInit.handlerRuns ≤
      (Strate.nextRun ⟨false, false⟩ Strate.c3Data [.emit "H"] ["A", "EH"]
        Strate.engInit).2.handlerRuns ∧
    (Strate.nextRun ⟨false, false⟩ Strate.c3Data [.emit "H"] ["A", "EH"]
        Strate.engInit).2.handlerRuns ≤ Strate.engInit.handlerRuns + 1 := by
  have h := Strate.C9_handler_at_most_once ⟨false, false⟩ Strate.c3Data [.emit "H"]
    ["A", "EH"] ?_ Strate.engInit
  · exact ⟨h.1, h.2.1⟩
  · intro nm hnm
    rcases List.mem_cons.mp hnm with hnm | hnm
    · subst hnm
      refine ⟨by decide, ?_⟩
      show Strate.callsNextAtMostOnce (Strate.MWBehavior.prog [.callNext, .emit "x"])
      show ([Strate.Action.callNext, .emit "x"].count .callNext) ≤ 1
      decide
    · simp only [List.mem_singleton] at hnm
      subst hnm
      refine ⟨by decide, ?_⟩
      show Strate.callsNextAtMostOnce Strate.MWBehavior.errorHandler
      trivial

/-- Witness for C2 at the spec's concrete example: middleware `A` (no
dependencies) and `B`, both printing markers around `next()`: the
observed order is A-pre, B-pre, handler, B-post, A-post, and the run
ends normally with the handler executed once. -/

theorem C2_onion_execution_order_witness :
    (Strate.nextRun ⟨false, false⟩
        (Strate.onionProg (fun nm => [nm ++ "-pre"]) (fun nm => [nm ++ "-post"]))
        (["H"].map .emit) ["A", "B"] Strate.engInit).1 = .ok () ∧
    Strate.markersOf (Strate.nextRun ⟨false, false⟩
        (Strate.onionProg (fun nm => [nm ++ "-pre"]) (fun nm => [nm ++ "-post"]))
        (["H"].map .emit) ["A", "B"] Strate.engInit).2.trace =
      ["A-pre", "B-pre", "H", "B-post", "A-post"] ∧
    (Strate.nextRun ⟨false, false⟩
        (Strate.onionProg (fun nm => [nm ++ "-pre"]) (fun nm => [nm ++ "-post"]))
        (["H"].map .emit) ["A", "B"] Strate.engInit).2.handlerRuns = 1 := by
  have h := Strate.C2_onion_execution_order ⟨false, false⟩
    (fun nm => [nm ++ "-pre"]) (fun nm => [nm ++ "-post"]) ["H"]
    ["A", "B"] Strate.engInit (by decide)
  refine ⟨h.1, ?_, h.2.2.1⟩
  rw [h.2.1]
  rfl

/-- Claim C10 counterexample:  The claim says `Object.assign` writes onto
the base object passed as first argument and returns that same object,
so route-set fields persist across invocations sharing a base.  In the
code the rest pattern `{ middleware: baseMiddleware = [], ...baseConfiguration }`
makes `Object.assign` target a fresh copy: the call returns a new
reference (1, not the base reference 0), the base object is unchanged
afterwards, and a second invocation reusing the base sees
`debug = false`, not the `debug = true` set by the first route. -/

theorem C10_base_not_mutated_counterexample :
    c10Call1.2 = 1 ∧ c10Call1.2 ≠ 0 ∧
    c10Call1.1.getD 0 ⟨none, none, none⟩ = ⟨some false, some [], none⟩ ∧
    (c10Call2.1.getD c10Call2.2 ⟨none, none, none⟩).debug = some false := by
  decide

/-- Claim C10 (amended):  `loadConfiguration` never mutates the base
configuration object: it allocates a fresh result object (the base
parameter's rest-copy, mutated by `Object.assign`), returns the fresh
reference, and leaves every pre-existing object — the base included —
untouched; the fresh object holds the route's present fields over the
base's rest fields, the merged-and-skip-filtered middleware list and the
resolved skip list.  Fields set by one invocation are therefore not
visible to later invocations that reuse the same base object. -/

theorem C10_loadConfiguration_allocates_fresh (h : List Strate.CfgObj) (baseRef : Nat)
    (route : Strate.CfgObj) (href : baseRef < h.length) :
    (Strate.loadConfiguration h baseRef route).2 = h.length ∧
    (Strate.loadConfiguration h baseRef route).2 ≠ baseRef ∧
    (∀ i d, i < h.length → (Strate.loadConfiguration h baseRef route).1.getD i d = h.getD i d) ∧
    (∀ d, (Strate.loadConfiguration h baseRef route).1.getD h.length d =
      { debug := match route.debug with
                 | some b => some b
                 | none => (h.getD baseRef ⟨none, none, none⟩).debug
        middleware := some ((((h.getD baseRef ⟨none, none, none⟩).middleware.getD []) ++
            (route.middleware.getD [])).filter
          (fun m => !((route.skip.getD []).map Strate.getMiddlewareName).contains
            (Strate.getMiddlewareName m)))
        skip := some (((route.skip.getD []).map Strate.getMiddlewareName).map
          Strate.MWRef.str) }) := by
  refine ⟨rfl, ?_, fun i d hi => ?_, fun d => ?_⟩
  · show h.length ≠ baseRef
    omega
  · show (h ++ [_]).getD i d = h.getD i d
    unfold List.getD
    rw [List.get?_append hi]
  · show (h ++ [_]).getD h.length d = _
    unfold List.getD
    rw [List.get?_concat_length]
    rfl

/-- Witness for the amended C10 at the concrete counterexample heap. -/

theorem C10_loadConfiguration_allocates_fresh_witness :
    c10Call1.2 = c10Heap0.length ∧ c10Call1.2 ≠ 0 ∧
    c10Call1.1.getD 0 ⟨none, none, none⟩ = c10Heap0.getD 0 ⟨none, none, none⟩ := by
  have h := C10_loadConfiguration_allocates_fresh c10Heap0 0 ⟨some true, none, none⟩
    (by decide)
  exact ⟨h.1, h.2.1, h.2.2.1 0 ⟨none, none, none⟩ (by decide)⟩

open Strate in

/-- Claim C8:  The proxied context: writing an already-present top-level
key invokes `strate.warn` and still stores the new value (last write
wins); writing a fresh key warns nothing; reading an absent key invokes
`strate.warn` and yields `undefined` without throwing; and neither
interception fires for keys nested inside a stored object (the only
proxied access there is the read of the present outer key). -/

theorem C8_context_warnings (c : Ctx) (k : String) (v : JSVal) :
    (hasOwn c k = true → (ctxSet c k v).2 = true) ∧
    (hasOwn c k = false → (ctxSet c k v).2 = false) ∧
    lookupEntry (ctxSet c k v).1 k = some v ∧
    (hasOwn c k = false → ctxGet c k = (JSVal.undef, true)) ∧
    (hasOwn c k = true → (ctxGet c k).2 = false) ∧
    (∀ flds k2 v2, lookupEntry c k = some (JSVal.obj flds) →
      (ctxSetNested c k k2 v2).2 = false ∧ (ctxGetNested c k k2).2 = false ∧
      (ctxGetNested c k k2).1 = flds.lookup k2) := by
  refine ⟨fun h => by simp [ctxSet, h],
          fun h => by simp [ctxSet, h],
          lookupEntry_setEntry_self c.entries k v,
          fun h => ?_,
          fun h => by simp [ctxGet, h],
          fun flds k2 v2 hl => ?_⟩
  · have hnone : lookupEntry c k = none := by
      cases hx : lookupEntry c k with
      | none => rfl
      | some x => rw [hasOwn_of_lookup hx] at h; exact absurd h (by simp)
    simp [ctxGet, hnone, h]
  · have hown : hasOwn c k = true := hasOwn_of_lookup hl
    refine ⟨?_, ?_, ?_⟩
    · simp [ctxSetNested, hl, hown]
    · simp [ctxGetNested, hl, hown]
    · simp [ctxGetNested, hl]

/-- Witness for C8 at a concrete context: the key `"strate"` is present
(write warns, read does not), the key `"missing"` is absent (read warns
and yields `undefined`, write does not warn), and nested access through
the stored `"data"` object never warns. -/

theorem C8_context_warnings_witness :
    (Strate.ctxSet wCtx8 "strate" (Strate.JSVal.prim "x")).2 = true ∧
    Strate.ctxGet wCtx8 "missing" = (Strate.JSVal.undef, true) ∧
    (Strate.ctxSet wCtx8 "missing" (Strate.JSVal.prim "y")).2 = false ∧
    (Strate.ctxSetNested wCtx8 "data" "k" "v").2 = false ∧
    (Strate.ctxGetNested wCtx8 "data" "absent").2 = false := by
  have h1 := C8_context_warnings wCtx8 "strate" (Strate.JSVal.prim "x")
  have h2 := C8_context_warnings wCtx8 "missing" (Strate.JSVal.prim "y")
  have h3 := C8_context_warnings wCtx8 "data" (Strate.JSVal.prim "z")
  refine ⟨h1.1 (by decide), h2.2.2.2.1 (by decide), h2.2.1 (by decide), ?_, ?_⟩
  · exact (h3.2.2.2.2.2 [("k0", "v0")] "k" "v" (by decide)).1
  · exact (h3.2.2.2.2.2 [("k0", "v0")] "absent" "w" (by decide)).2.1

/-- Claim C5: `getMiddlewareName` on an instance whose class declares no
`namespace` and no `id()`: the claim says the identity equals the bare
class name (the string the type reference resolves to).  The code
declares `let namespace: string`, assigns it only when the static is
truthy, and then returns `namespace + (id || constructor.name)`; with no
namespace the variable is `undefined` and is coerced to the string
`"undefined"`, so the instance identity is `"undefinedPrisma"` while the
type reference resolves to `"Prisma"`. -/

theorem C5_instance_identity_undefined_prefix :
    Strate.getMiddlewareName (.inst none "Prisma" none) = "undefinedPrisma" ∧
    Strate.getMiddlewareName (.cls none "Prisma") = "Prisma" ∧
    Strate.getMiddlewareName (.inst none "Prisma" none) ≠
      Strate.getMiddlewareName (.cls none "Prisma") := by
  refine ⟨rfl, rfl, ?_⟩
  decide
